import Mathlib

/-!
Verification of the Ledgerly transaction ledger (Django app `transactions`).

The development shallowly embeds the ledger engine:

* `Transaction`, the row type of `src/transactions/models.py`;
* `recalculate_running_balance`, the full-recompute balance engine
  (`src/transactions/models.py`, lines 67-84);
* `add_transaction`, the single-entry admission view
  (`src/transactions/views.py`, lines 344-431);
* `import_transactions`, the batch-import view
  (`src/transactions/views.py`, lines 436-520);
* `command_handle`, the management-command batch import
  (`src/transactions/management/commands/import_transactions.py`).

Monetary amounts are `DecimalField(max_digits=10, decimal_places=2)`; they are
represented exactly as integer cents.  Timestamps are represented as natural
numbers; `created_at` is nullable in the model, hence `Option Nat`.
-/

namespace Ledgerly

/-- One row of the `Transaction` table (`src/transactions/models.py`), as
held by the Python object.  `code` is the nullable unique external code;
`type` is `'deposit'` or `'expense'` — the Python attribute can be `None`
(the batch-import view builds such objects), but the column itself is NOT
NULL (`models.py` line 20 has no `null=True`), so committing a `none` type
makes the INSERT raise (see `bulkCreateFails`); `amount` is in cents;
`created_at` is nullable; `running_balance` is the derived balance column
(default `0.00`). -/
structure Transaction where
  id : Nat
  code : Option String
  type : Option String
  amount : Int
  created_at : Option Nat
  running_balance : Int
  is_api : Bool
deriving DecidableEq, Repr

/-- Strict order on nullable timestamps: `ORDER BY created_at` ascending puts
SQL NULLs first, then timestamps in increasing order. -/
def tsLt : Option Nat → Option Nat → Bool
  | none, none => false
  | none, some _ => true
  | some _, none => false
  | some a, some b => a < b

/-- The model's ordering key `ordering = ['created_at', 'id']`
(`src/transactions/models.py`, line 30): `created_at` ascending with `id`
ascending as the tie-break. -/
def keyLe (a b : Transaction) : Prop :=
  tsLt a.created_at b.created_at = true ∨
    (a.created_at = b.created_at ∧ a.id ≤ b.id)

instance : DecidableRel keyLe := fun a b => by
  unfold keyLe
  infer_instance

/-- The ordered sequence `Transaction.objects.order_by('created_at', 'id')`
read by the recomputation engine. -/
def orderedRows (rows : List Transaction) : List Transaction :=
  List.insertionSort keyLe rows

/-- Overwrite the derived balance column of one row. -/
def setBalance (t : Transaction) (b : Int) : Transaction :=
  { t with running_balance := b }

/-- The loop of `recalculate_running_balance` (`src/transactions/models.py`,
lines 73-81): walk the ordered sequence with the accumulator
`current_balance`, collecting exactly the rows whose stored
`running_balance` differs from the recomputed value. -/
def changedRows (bal : Int) : List Transaction → List Transaction
  | [] => []
  | t :: ts =>
    (if t.running_balance = bal + t.amount then []
     else [setBalance t (bal + t.amount)]) ++ changedRows (bal + t.amount) ts

/-- `Transaction.objects.bulk_update(transactions_to_update,
['running_balance'])`: each table row whose primary key appears in the update
list is overwritten with the updated object; other rows are untouched. -/
def bulk_update (upds rows : List Transaction) : List Transaction :=
  rows.map fun r => (upds.find? fun u => u.id == r.id).getD r

/-- The database state: the `Transaction` table together with the next
auto-assigned primary key. -/
structure DB where
  rows : List Transaction
  nextId : Nat
deriving DecidableEq, Repr

/-- `recalculate_running_balance` (`src/transactions/models.py`, lines
67-84): read the ordered sequence, fold the running balance from zero, and
bulk-update exactly the changed rows.  The second component is the number of
rows written (the length of `transactions_to_update`). -/
def recalculate_running_balance (db : DB) : DB × Nat :=
  let upds := changedRows 0 (orderedRows db.rows)
  ({ db with rows := bulk_update upds db.rows }, upds.length)

/-- Primary keys are unique — a database invariant of every real table
state. -/
def idsNodup (rows : List Transaction) : Prop :=
  (rows.map (·.id)).Nodup

instance (rows : List Transaction) : Decidable (idsNodup rows) := by
  unfold idsNodup
  infer_instance

/-- Well-formed database state: unique primary keys, all below the next
fresh key. -/
def DB.ok (db : DB) : Prop :=
  idsNodup db.rows ∧ ∀ r ∈ db.rows, r.id < db.nextId

instance (db : DB) : Decidable db.ok := by
  unfold DB.ok
  infer_instance

/-- `Transaction.objects.order_by('-created_at', '-id').first()`: the
chronologically last entry, i.e. the maximum of the ordering key (SQL `DESC`
puts NULL timestamps last, so this is the last element of the ascending
order). -/
def lastByKey (db : DB) : Option Transaction :=
  (orderedRows db.rows).getLast?

/-- The current total balance read by the views: the `running_balance` of the
chronologically last entry, or `0.00` on an empty ledger. -/
def currentTotalBalance (db : DB) : Int :=
  match lastByKey db with
  | none => 0
  | some t => t.running_balance

/-- `TransactionForm` validation (`src/transactions/forms.py`): `type` must
be one of the two model choices, `clean_amount` requires a positive amount,
and `DecimalField(max_digits=10, decimal_places=2)` bounds it by
`99999999.99`. -/
def form_is_valid (ty : String) (amount : Int) : Prop :=
  (ty = "deposit" ∨ ty = "expense") ∧ 0 < amount ∧ amount ≤ 9999999999

instance (ty : String) (amount : Int) : Decidable (form_is_valid ty amount) := by
  unfold form_is_valid
  infer_instance

/-- Sign normalization (`src/transactions/models.py`, lines 42-45; the
batch-import view repeats the identical logic at
`src/transactions/views.py`, lines 484-487): a positive expense is negated,
a negative deposit is replaced by its absolute value. -/
def normalizeSign (ty : Option String) (a : Int) : Int :=
  if ty = some "expense" ∧ 0 < a then -a
  else if ty = some "deposit" ∧ a < 0 then |a|
  else a

/-- Calendar day of a timestamp (the local day boundary used by
`start_of_day`/`end_of_day` in the daily-limit check). -/
def dayOf (t : Nat) : Nat := t / 86400

/-- The filter of the daily-limit query: an expense row whose `created_at`
falls inside the current calendar day (rows with NULL `created_at` match
neither bound). -/
def isExpenseOnDay (now : Nat) (r : Transaction) : Bool :=
  r.type == some "expense" &&
    match r.created_at with
    | some t => dayOf t == dayOf now
    | none => false

/-- `Transaction.objects.filter(type='expense', created_at__gte=start_of_day,
created_at__lte=end_of_day).count()` (`src/transactions/views.py`, lines
382-386). -/
def expensesToday (db : DB) (now : Nat) : Nat :=
  (db.rows.filter (isExpenseOnDay now)).length

/-- `TRANSACTION_LIMIT_PER_DAY = 200` (`src/transactions/views.py`, line
270). -/
def TRANSACTION_LIMIT_PER_DAY : Nat := 200

/-- `uuid.uuid4().hex[:8].upper()`: the first eight characters of the
32-character lowercase hex digest, uppercased. -/
def genCode (uuidHex : String) : String :=
  ⟨(uuidHex.data.take 8).map Char.toUpper⟩

/-- Outcome of the `add_transaction` view: success with the refreshed entry
and the reported total balance, or one of the three rejection responses
(form errors, `'Not enough balance'`, `'Too many expenses today.'`). -/
inductive AddOutcome where
  | success (entry : Transaction) (total_balance : Int)
  | invalidForm
  | notEnoughBalance
  | tooManyExpensesToday
deriving DecidableEq, Repr

/-- The row committed by a successful `add_transaction`: the fresh primary
key, the server-generated code, `created_at := now` (the entry is new and
the form sets no timestamp), the sign-normalized amount, and the default
balance before recomputation. -/
def newEntry (db : DB) (ty : String) (a : Int) (now : Nat)
    (uuidHex : String) : Transaction :=
  { id := db.nextId
    code := some (genCode uuidHex)
    type := some ty
    amount := normalizeSign (some ty) a
    created_at := some now
    running_balance := 0
    is_api := false }

/-- The `add_transaction` view (`src/transactions/views.py`, lines 344-431)
together with the `Transaction.save` override it invokes
(`src/transactions/models.py`, lines 32-49): validate the form; for an
expense, reject when the current total balance is below `abs(amount)`, then
reject when the count of today's expenses plus one exceeds the daily limit;
otherwise assign the server-generated code, normalize the sign, insert,
and recompute (once inside `save`, once again in the view).  The response
carries the refreshed entry and the new total balance. -/
def add_transaction (db : DB) (ty : String) (a : Int) (now : Nat)
    (uuidHex : String) : AddOutcome × DB :=
  if ¬ form_is_valid ty a then (.invalidForm, db)
  else if ty = "expense" ∧ currentTotalBalance db < |a| then
    (.notEnoughBalance, db)
  else if ty = "expense" ∧ expensesToday db now + 1 > TRANSACTION_LIMIT_PER_DAY then
    (.tooManyExpensesToday, db)
  else
    let entry := newEntry db ty a now uuidHex
    let db1 : DB := { rows := db.rows ++ [entry], nextId := db.nextId + 1 }
    let db2 := (recalculate_running_balance db1).1
    let db3 := (recalculate_running_balance db2).1
    let fresh := (db3.rows.find? fun r => r.id == entry.id).getD entry
    (.success fresh (currentTotalBalance db3), db3)

/-- `Transaction.objects.filter(code=item_id).exists()`: does some table row
already carry this external code? -/
def codeExists (db : DB) (c : String) : Bool :=
  db.rows.any fun r => r.code == some c

/-- A raw timestamp string from the import source: either it parses to a
timestamp or it is malformed. -/
inductive TsField where
  | good (t : Nat)
  | bad
deriving DecidableEq, Repr

/-- A raw record of the external import source (§6 of the spec): identifier,
amount, kind and timestamp, each possibly missing. -/
structure RawRecord where
  id : Option String
  amount : Option Int
  type : Option String
  createdAt : Option TsField
deriving DecidableEq, Repr

/-- Timestamp handling of the batch-import view (`src/transactions/views.py`,
lines 472-482): a missing `createdAt` leaves `created_at = None`; a
malformed one falls back to the current time. -/
def parseViewTs (now : Nat) : Option TsField → Option Nat
  | none => none
  | some (.good t) => some t
  | some .bad => some now

/-- The `Transaction(...)` object built by the batch-import view
(`src/transactions/views.py`, lines 468-497): `amount` defaults to `0` when
missing (`item.get('amount', '0')`), the type is stored as received, the
sign is normalized, and the primary key is assigned later by
`bulk_create`. -/
def mkImportRow (cid : String) (r : RawRecord) (now : Nat) : Transaction :=
  { id := 0
    code := some cid
    type := r.type
    amount := normalizeSign r.type (r.amount.getD 0)
    created_at := parseViewTs now r.createdAt
    running_balance := 0
    is_api := true }

/-- The skip conditions of the batch-import view loop, in source order: a
missing or falsy (empty) identifier, or an identifier already present in
the table. -/
def viewSkip (db : DB) (r : RawRecord) : Bool :=
  match r.id with
  | none => true
  | some cid => cid == "" || codeExists db cid

/-- The loop of the batch-import view (`src/transactions/views.py`, lines
457-502), processed left to right against the unchanged table: returns
`(imported_count, skipped_count, new_transactions_to_create)`. -/
def viewProcess (db : DB) (now : Nat) : List RawRecord → Nat × Nat × List Transaction
  | [] => (0, 0, [])
  | r :: rs =>
    let rest := viewProcess db now rs
    match r.id with
    | none => (rest.1, rest.2.1 + 1, rest.2.2)
    | some cid =>
      if cid = "" then (rest.1, rest.2.1 + 1, rest.2.2)
      else if codeExists db cid then (rest.1, rest.2.1 + 1, rest.2.2)
      else (rest.1 + 1, rest.2.1, mkImportRow cid r now :: rest.2.2)

/-- The sort key of `new_transactions_to_create.sort(key=lambda x:
x.created_at or timezone.now())`. -/
def pendKey (now : Nat) (t : Transaction) : Nat :=
  t.created_at.getD now

/-- The stable pre-insertion sort of the pending rows
(`src/transactions/views.py`, line 505). -/
def sortPending (now : Nat) (pend : List Transaction) : List Transaction :=
  List.insertionSort (fun x y => pendKey now x ≤ pendKey now y) pend

/-- `bulk_create`: the database assigns consecutive fresh primary keys to the
created rows, in list order. -/
def assignIds (n : Nat) : List Transaction → List Transaction
  | [] => []
  | t :: ts => { t with id := n } :: assignIds (n + 1) ts

/-- The JSON payload of the batch-import view's success response:
`imported_count`, `skipped_count` and the post-import total balance. -/
structure ImportOutcome where
  imported : Nat
  skipped : Nat
  total_balance : Int
deriving DecidableEq, Repr

/-- Result of the batch-import view: the success response, or the 500 the
outer `except Exception` handler returns when `bulk_create` raises. -/
inductive ViewImportResult where
  | ok (out : ImportOutcome)
  | serverError
deriving DecidableEq, Repr

/-- Does the INSERT behind the view's `bulk_create(new_transactions)` raise
`IntegrityError`?  The `type` column is NOT NULL (`models.py` line 20 has
no `null=True`) and `code` is unique (line 18), and this `bulk_create` has
no `ignore_conflicts`: a pending row with a `none` type, a pending code
already present in the table, or two pending rows sharing a code abort the
whole statement.  (`code` and `created_at` are nullable; NULL codes do not
clash.) -/
def bulkCreateFails (db : DB) : List Transaction → Bool
  | [] => false
  | t :: ts =>
    (t.type == none
      || match t.code with
         | some c => codeExists db c || ts.any fun u => u.code == some c
         | none => false)
      || bulkCreateFails db ts

/-- The `import_transactions` view (`src/transactions/views.py`, lines
436-520): process the fetched records; when anything is pending, sort it
and `bulk_create` it — if the INSERT raises, the outer handler returns a
500 and the transaction leaves the table untouched (nothing is inserted);
otherwise recompute once.  The success response reports the counters and
the total balance read back from the table. -/
def import_transactions (db : DB) (recs : List RawRecord) (now : Nat) :
    ViewImportResult × DB :=
  let res := viewProcess db now recs
  if res.2.2.isEmpty then
    (.ok { imported := res.1, skipped := res.2.1,
           total_balance := currentTotalBalance db }, db)
  else
    let sorted := sortPending now res.2.2
    if bulkCreateFails db sorted then (.serverError, db)
    else
      let db1 : DB := { rows := db.rows ++ assignIds db.nextId sorted,
                        nextId := db.nextId + sorted.length }
      let db2 := (recalculate_running_balance db1).1
      (.ok { imported := res.1, skipped := res.2.1,
             total_balance := currentTotalBalance db2 }, db2)

/-- `parse_datetime(item['createdAt'])` in the management command: a
malformed string yields `None` (stored as a NULL timestamp). -/
def cmdParseTs : TsField → Option Nat
  | .good t => some t
  | .bad => none

/-- The `Transaction(...)` object built by the management command
(`src/transactions/management/commands/import_transactions.py`, lines
71-79): the amount is stored exactly as received — `bulk_create` bypasses
`Transaction.save`, so no sign normalization happens on this path. -/
def mkCmdRow (cid : String) (a : Int) (ty : String) (ts : TsField) : Transaction :=
  { id := 0
    code := some cid
    type := some ty
    amount := a
    created_at := cmdParseTs ts
    running_balance := 0
    is_api := true }

/-- The loop of the management command (lines 56-85): a record missing any
of the four required keys is skipped with a warning; a record whose
identifier is among the pre-fetched existing codes is skipped; the rest
become pending rows. -/
def cmdPending (db : DB) : List RawRecord → List Transaction
  | [] => []
  | r :: rs =>
    match r.id, r.amount, r.type, r.createdAt with
    | some cid, some a, some ty, some ts =>
      if codeExists db cid then cmdPending db rs
      else mkCmdRow cid a ty ts :: cmdPending db rs
    | _, _, _, _ => cmdPending db rs

/-- `bulk_create(..., ignore_conflicts=True)`: rows are inserted one by one
with fresh primary keys; a row whose (non-NULL) code collides with an
already present code is silently dropped by the unique constraint. -/
def insertIgnoreConflicts (db : DB) : List Transaction → DB
  | [] => db
  | t :: ts =>
    match t.code with
    | some c =>
      if codeExists db c then insertIgnoreConflicts db ts
      else insertIgnoreConflicts
        { rows := db.rows ++ [{ t with id := db.nextId }],
          nextId := db.nextId + 1 } ts
    | none =>
      insertIgnoreConflicts
        { rows := db.rows ++ [{ t with id := db.nextId }],
          nextId := db.nextId + 1 } ts

/-- `Command.handle` of the management command
(`src/transactions/management/commands/import_transactions.py`, lines
24-96): build the pending list against the pre-fetched codes, bulk-create it
with `ignore_conflicts=True`, and report `len(transactions_to_create)` as
the imported count.  No balance recomputation is triggered on this path. -/
def command_handle (db : DB) (recs : List RawRecord) : Nat × DB :=
  let pend := cmdPending db recs
  (pend.length, insertIgnoreConflicts db pend)

/-- Spec-side definition (§3 of the spec, the global invariant): the sum of
`amount` over all entries at or before `t` in the total order given by the
ordering key. -/
def specPrefixBalance (rows : List Transaction) (t : Transaction) : Int :=
  ((rows.filter fun r => decide (keyLe r t)).map (·.amount)).sum

/-- States reachable through the single-entry admission path alone, with a
submission clock that never runs behind the stored timestamps (manual
entries are stamped with the submission time, so stored timestamps of
previous manual entries never exceed the next submission time). -/
inductive ReachableAdd : DB → Prop
  | empty : ReachableAdd ⟨[], 0⟩
  | step (db : DB) (ty : String) (a : Int) (now : Nat) (uuidHex : String)
      (hdb : ReachableAdd db)
      (hnow : ∀ r ∈ db.rows, (tsLt r.created_at (some now) = true ∨
        r.created_at = some now)) :
      ReachableAdd (add_transaction db ty a now uuidHex).2

/-! ## Order-theoretic facts about the ordering key -/

theorem tsLt_trans {a b c : Option Nat} (h1 : tsLt a b = true)
    (h2 : tsLt b c = true) : tsLt a c = true := by
  cases a <;> cases b <;> cases c <;> simp_all [tsLt] <;> omega

theorem tsLt_irrefl (a : Option Nat) : tsLt a a = false := by
  cases a <;> simp [tsLt]

theorem tsLt_trichotomy (a b : Option Nat) :
    tsLt a b = true ∨ a = b ∨ tsLt b a = true := by
  cases a with
  | none => cases b with
    | none => exact Or.inr (Or.inl rfl)
    | some vb => exact Or.inl (by simp [tsLt])
  | some va => cases b with
    | none => exact Or.inr (Or.inr (by simp [tsLt]))
    | some vb =>
      rcases Nat.lt_trichotomy va vb with h | h | h
      · exact Or.inl (by simp [tsLt, h])
      · exact Or.inr (Or.inl (by rw [h]))
      · exact Or.inr (Or.inr (by simp [tsLt, h]))

theorem tsLt_asymm {a b : Option Nat} (h : tsLt a b = true) : tsLt b a = false := by
  cases a <;> cases b <;> simp_all [tsLt] <;> omega

theorem keyLe_refl (a : Transaction) : keyLe a a :=
  Or.inr ⟨rfl, Nat.le_refl _⟩

theorem keyLe_trans {a b c : Transaction} (h1 : keyLe a b) (h2 : keyLe b c) :
    keyLe a c := by
  rcases h1 with h1 | ⟨he1, hi1⟩
  · rcases h2 with h2 | ⟨he2, hi2⟩
    · exact Or.inl (tsLt_trans h1 h2)
    · exact Or.inl (he2 ▸ h1)
  · rcases h2 with h2 | ⟨he2, hi2⟩
    · exact Or.inl (he1 ▸ h2)
    · exact Or.inr ⟨he1.trans he2, hi1.trans hi2⟩

theorem keyLe_total (a b : Transaction) : keyLe a b ∨ keyLe b a := by
  rcases tsLt_trichotomy a.created_at b.created_at with h | h | h
  · exact Or.inl (Or.inl h)
  · rcases Nat.le_total a.id b.id with hi | hi
    · exact Or.inl (Or.inr ⟨h, hi⟩)
    · exact Or.inr (Or.inr ⟨h.symm, hi⟩)
  · exact Or.inr (Or.inl h)

theorem keyLe_antisymm {a b : Transaction} (h1 : keyLe a b) (h2 : keyLe b a) :
    a.created_at = b.created_at ∧ a.id = b.id := by
  rcases h1 with h1 | ⟨he1, hi1⟩
  · rcases h2 with h2 | ⟨he2, hi2⟩
    · have hf := tsLt_asymm h1
      rw [h2] at hf
      exact absurd hf (by simp)
    · rw [he2, tsLt_irrefl] at h1
      exact absurd h1 (by simp)
  · rcases h2 with h2 | ⟨he2, hi2⟩
    · rw [he1, tsLt_irrefl] at h2
      exact absurd h2 (by simp)
    · exact ⟨he1, Nat.le_antisymm hi1 hi2⟩

instance : IsTotal Transaction keyLe := ⟨keyLe_total⟩

instance : IsTrans Transaction keyLe := ⟨fun _ _ _ => keyLe_trans⟩

theorem orderedRows_perm (rows : List Transaction) :
    (orderedRows rows).Perm rows :=
  List.perm_insertionSort keyLe rows

theorem orderedRows_sorted (rows : List Transaction) :
    List.Sorted keyLe (orderedRows rows) :=
  List.sorted_insertionSort keyLe rows

theorem idsNodup_of_perm {l₁ l₂ : List Transaction} (hp : l₁.Perm l₂)
    (hn : idsNodup l₂) : idsNodup l₁ := by
  unfold idsNodup at hn ⊢
  exact ((hp.map fun t => t.id).nodup_iff).mpr hn

/-- In a sorted list with unique primary keys, no later element is
key-below the head. -/
theorem not_keyLe_head {t : Transaction} {ts : List Transaction}
    (hs : List.Sorted keyLe (t :: ts)) (hn : idsNodup (t :: ts)) :
    ∀ u ∈ ts, ¬ keyLe u t := by
  intro u hu hle
  have hge : keyLe t u := (List.sorted_cons.mp hs).1 u hu
  have hid : u.id = t.id := (keyLe_antisymm hle hge).2
  have : t.id ∈ ts.map (·.id) := by
    exact List.mem_map.mpr ⟨u, hu, hid⟩
  exact (List.nodup_cons.mp hn).1 this

/-! ## The recomputation engine computes prefix sums -/

theorem specPrefixBalance_head {t : Transaction} {ts : List Transaction}
    (hs : List.Sorted keyLe (t :: ts)) (hn : idsNodup (t :: ts)) :
    specPrefixBalance (t :: ts) t = t.amount := by
  unfold specPrefixBalance
  rw [List.filter_cons]
  have h1 : decide (keyLe t t) = true := decide_eq_true (keyLe_refl t)
  have h2 : ts.filter (fun r => decide (keyLe r t)) = [] := by
    rw [List.filter_eq_nil_iff]
    intro u hu
    simpa using not_keyLe_head hs hn u hu
  simp [h1, h2]

theorem specPrefixBalance_cons_of_keyLe {t u : Transaction}
    {ts : List Transaction} (h : keyLe t u) :
    specPrefixBalance (t :: ts) u = t.amount + specPrefixBalance ts u := by
  unfold specPrefixBalance
  rw [List.filter_cons]
  simp [decide_eq_true h]

theorem specPrefixBalance_perm {l₁ l₂ : List Transaction} (hp : l₁.Perm l₂)
    (t : Transaction) : specPrefixBalance l₁ t = specPrefixBalance l₂ t := by
  unfold specPrefixBalance
  exact ((hp.filter _).map _).sum_eq

theorem specPrefixBalance_setBalance (l : List Transaction)
    (r : Transaction) (c : Int) :
    specPrefixBalance l (setBalance r c) = specPrefixBalance l r := rfl

theorem setBalance_id (r : Transaction) (c : Int) :
    (setBalance r c).id = r.id := rfl

/-- Every collected row of `changedRows` is a row of the ordered sequence,
rewritten to its prefix sum, and was collected because its stored value
differed. -/
theorem changedRows_mem {b : Int} {l : List Transaction}
    (hs : List.Sorted keyLe l) (hn : idsNodup l) :
    ∀ u ∈ changedRows b l, ∃ r ∈ l,
      u = setBalance r (b + specPrefixBalance l r) ∧
      r.running_balance ≠ b + specPrefixBalance l r := by
  induction l generalizing b with
  | nil => intro u hu; simp [changedRows] at hu
  | cons t ts ih =>
    intro u hu
    unfold changedRows at hu
    rcases List.mem_append.mp hu with hu | hu
    · by_cases h0 : t.running_balance = b + t.amount
      · simp [h0] at hu
      · simp [h0] at hu
        refine ⟨t, List.mem_cons_self t ts, ?_, ?_⟩
        · rw [specPrefixBalance_head hs hn, hu]
        · rw [specPrefixBalance_head hs hn]; exact h0
    · have hs' := (List.sorted_cons.mp hs).2
      have hn' : idsNodup ts := (List.nodup_cons.mp hn).2
      rcases ih hs' hn' u hu with ⟨r, hr, hu', hne⟩
      have hle : keyLe t r := (List.sorted_cons.mp hs).1 r hr
      refine ⟨r, List.mem_cons_of_mem t hr, ?_, ?_⟩
      · rw [specPrefixBalance_cons_of_keyLe hle, hu']
        congr 1
        omega
      · rw [specPrefixBalance_cons_of_keyLe hle]
        omega

/-- A row of the ordered sequence whose primary key is absent from the
collected updates already stored its prefix sum. -/
theorem changedRows_not_mem {b : Int} {l : List Transaction}
    (hs : List.Sorted keyLe l) (hn : idsNodup l) :
    ∀ r ∈ l, (∀ u ∈ changedRows b l, u.id ≠ r.id) →
      r.running_balance = b + specPrefixBalance l r := by
  induction l generalizing b with
  | nil => intro r hr; simp at hr
  | cons t ts ih =>
    intro r hr hno
    rcases List.mem_cons.mp hr with rfl | hr
    · by_cases h0 : r.running_balance = b + r.amount
      · rw [specPrefixBalance_head hs hn]; exact h0
      · exfalso
        refine hno (setBalance r (b + r.amount)) ?_ rfl
        unfold changedRows
        simp [h0]
    · have hs' := (List.sorted_cons.mp hs).2
      have hn' : idsNodup ts := (List.nodup_cons.mp hn).2
      have hno' : ∀ u ∈ changedRows (b + t.amount) ts, u.id ≠ r.id := by
        intro u hu
        refine hno u ?_
        unfold changedRows
        exact List.mem_append.mpr (Or.inr hu)
      have hle : keyLe t r := (List.sorted_cons.mp hs).1 r hr
      have := ih hs' hn' r hr hno'
      rw [specPrefixBalance_cons_of_keyLe hle]
      omega

/-- When every row already stores its prefix sum, nothing is collected:
the write set is empty. -/
theorem changedRows_eq_nil {b : Int} {l : List Transaction}
    (hs : List.Sorted keyLe l) (hn : idsNodup l)
    (h : ∀ u ∈ l, u.running_balance = b + specPrefixBalance l u) :
    changedRows b l = [] := by
  induction l generalizing b with
  | nil => rfl
  | cons t ts ih =>
    have h0 : t.running_balance = b + t.amount := by
      have := h t (List.mem_cons_self t ts)
      rwa [specPrefixBalance_head hs hn] at this
    have hs' := (List.sorted_cons.mp hs).2
    have hn' : idsNodup ts := (List.nodup_cons.mp hn).2
    have htail : changedRows (b + t.amount) ts = [] := by
      refine ih hs' hn' ?_
      intro u hu
      have hle : keyLe t u := (List.sorted_cons.mp hs).1 u hu
      have := h u (List.mem_cons_of_mem t hu)
      rw [specPrefixBalance_cons_of_keyLe hle] at this
      omega
    unfold changedRows
    simp [h0, htail]

/-! ## Effect of the bulk update on the table -/

/-- Pointwise effect of writing back the changed rows: every table row ends
up storing its prefix sum (rows absent from the update list already stored
it). -/
theorem bulk_update_changed {db : DB} (hn : idsNodup db.rows) :
    ∀ r ∈ db.rows,
      ((changedRows 0 (orderedRows db.rows)).find? fun u => u.id == r.id).getD r
        = setBalance r (specPrefixBalance db.rows r) := by
  intro r hr
  have hperm := orderedRows_perm db.rows
  have hs := orderedRows_sorted db.rows
  have hn' : idsNodup (orderedRows db.rows) := idsNodup_of_perm hperm hn
  have hrl : r ∈ orderedRows db.rows := hperm.mem_iff.mpr hr
  rcases hfind : (changedRows 0 (orderedRows db.rows)).find?
      (fun u => u.id == r.id) with _ | u
  · have hnone := List.find?_eq_none.mp hfind
    have hid : ∀ u ∈ changedRows 0 (orderedRows db.rows), u.id ≠ r.id := by
      intro u hu
      have := hnone u hu
      simpa using this
    have hval := changedRows_not_mem hs hn' r hrl hid
    rw [specPrefixBalance_perm hperm r] at hval
    rw [hfind]
    show r = setBalance r (specPrefixBalance db.rows r)
    have hval' : specPrefixBalance db.rows r = r.running_balance := by omega
    rw [hval']
    rfl
  · have hu := List.mem_of_find?_eq_some hfind
    have hid : u.id = r.id := by
      have := List.find?_some hfind
      simpa using this
    rcases changedRows_mem hs hn' u hu with ⟨r₀, hr₀, hu', _⟩
    have hr₀rows : r₀ ∈ db.rows := hperm.mem_iff.mp hr₀
    have hid₀ : r₀.id = r.id := by
      rw [← hid, hu']
      rfl
    have hreq : r₀ = r := by
      have hinj := List.inj_on_of_nodup_map (f := fun t : Transaction => t.id) hn
      exact hinj hr₀rows hr hid₀
    subst hreq
    rw [hfind]
    show u = setBalance r₀ (specPrefixBalance db.rows r₀)
    rw [hu', specPrefixBalance_perm hperm r₀]
    congr 1
    omega

/-- The table after `recalculate_running_balance`: every row rewritten to
its prefix sum in the ordering-key total order. -/
theorem recalc_rows_eq {db : DB} (hn : idsNodup db.rows) :
    (recalculate_running_balance db).1.rows
      = db.rows.map fun r => setBalance r (specPrefixBalance db.rows r) := by
  unfold recalculate_running_balance bulk_update
  exact List.map_congr_left (bulk_update_changed hn)

theorem recalc_nextId (db : DB) :
    (recalculate_running_balance db).1.nextId = db.nextId := rfl

/-- Balance recomputation does not touch primary keys. -/
theorem recalc_ids (db : DB) (hn : idsNodup db.rows) :
    (recalculate_running_balance db).1.rows.map (·.id)
      = db.rows.map (·.id) := by
  rw [recalc_rows_eq hn, List.map_map]
  rfl

/-- Prefix sums ignore the stored balances: rewriting every row's balance
leaves `specPrefixBalance` unchanged. -/
theorem specPrefixBalance_map_setBalance (rows : List Transaction)
    (f : Transaction → Int) (t : Transaction) :
    specPrefixBalance (rows.map fun r => setBalance r (f r)) t
      = specPrefixBalance rows t := by
  induction rows with
  | nil => rfl
  | cons r rs ih =>
    unfold specPrefixBalance at ih ⊢
    simp only [List.map_cons, List.filter_cons]
    have : decide (keyLe (setBalance r (f r)) t) = decide (keyLe r t) := rfl
    rw [this]
    by_cases h : decide (keyLe r t) = true
    · simp only [h, if_true, List.map_cons, List.sum_cons, ih]
      rfl
    · simp only [h]
      simpa using ih

/-- After a recomputation, every row of the table stores the prefix sum of
the table it lives in. -/
theorem recalc_invariant {db : DB} (hn : idsNodup db.rows) :
    ∀ t ∈ (recalculate_running_balance db).1.rows,
      t.running_balance
        = specPrefixBalance (recalculate_running_balance db).1.rows t := by
  intro t ht
  rw [recalc_rows_eq hn] at ht ⊢
  rcases List.mem_map.mp ht with ⟨r, hr, rfl⟩
  rw [specPrefixBalance_map_setBalance,
    specPrefixBalance_setBalance]
  rfl

/-- A second recomputation with no intervening insert collects nothing. -/
theorem changedRows_after_recalc {db : DB} (hn : idsNodup db.rows) :
    changedRows 0 (orderedRows (recalculate_running_balance db).1.rows) = [] := by
  set rows' := (recalculate_running_balance db).1.rows with hrows'
  have hn2 : idsNodup rows' := by
    unfold idsNodup
    rw [hrows', recalc_ids db hn]
    exact hn
  have hperm := orderedRows_perm rows'
  have hs := orderedRows_sorted rows'
  refine changedRows_eq_nil hs (idsNodup_of_perm hperm hn2) ?_
  intro u hu
  have humem : u ∈ rows' := hperm.mem_iff.mp hu
  have h1 : u.running_balance = specPrefixBalance rows' u := by
    exact recalc_invariant hn u (hrows' ▸ humem)
  rw [← specPrefixBalance_perm hperm u] at h1
  omega

/-! ## The chronologically last entry and the total balance -/

theorem sorted_getLast?_max {l : List Transaction} :
    List.Sorted keyLe l → ∀ {m : Transaction}, l.getLast? = some m →
      ∀ x ∈ l, keyLe x m := by
  induction l with
  | nil =>
    intro _ m hm
    simp at hm
  | cons a t ih =>
    intro hs m hm x hx
    cases t with
    | nil =>
      have ham : a = m := by simpa using hm
      have hxa : x = a := List.mem_singleton.mp hx
      rw [hxa, ham]
      exact keyLe_refl m
    | cons b t' =>
      rw [List.getLast?_cons_cons] at hm
      rcases List.mem_cons.mp hx with rfl | hx'
      · have hmmem : m ∈ b :: t' := by
          rcases List.getLast?_eq_some_iff.mp hm with ⟨ys, hys⟩
          rw [hys]
          exact List.mem_append.mpr (Or.inr (List.mem_singleton.mpr rfl))
        exact (List.sorted_cons.mp hs).1 m hmmem
      · exact ih (List.sorted_cons.mp hs).2 hm x hx'

/-- When the table satisfies the prefix-sum invariant, the balance the views
read off the chronologically last row is the sum of all amounts. -/
theorem currentTotalBalance_eq_total {db : DB}
    (hinv : ∀ r ∈ db.rows, r.running_balance = specPrefixBalance db.rows r) :
    currentTotalBalance db = (db.rows.map (·.amount)).sum := by
  unfold currentTotalBalance lastByKey
  rcases hl : (orderedRows db.rows).getLast? with _ | m
  · have hne : orderedRows db.rows = [] := List.getLast?_eq_none_iff.mp hl
    have : db.rows = [] := by
      have := orderedRows_perm db.rows
      rw [hne] at this
      exact (this.symm.eq_nil)
    rw [this]
    rfl
  · have hmo : m ∈ orderedRows db.rows := by
      rcases List.getLast?_eq_some_iff.mp hl with ⟨ys, hys⟩
      rw [hys]
      exact List.mem_append.mpr (Or.inr (List.mem_singleton.mpr rfl))
    have hmmem : m ∈ db.rows := (orderedRows_perm db.rows).mem_iff.mp hmo
    have hmax : ∀ x ∈ db.rows, keyLe x m := by
      intro x hx
      exact sorted_getLast?_max (orderedRows_sorted db.rows) hl x
        ((orderedRows_perm db.rows).mem_iff.mpr hx)
    show m.running_balance = (db.rows.map (·.amount)).sum
    rw [hinv m hmmem]
    unfold specPrefixBalance
    rw [List.filter_eq_self.mpr ?_]
    intro a ha
    exact decide_eq_true (hmax a ha)

/-! ## Idempotence of the recomputation -/

theorem bulk_update_nil (rows : List Transaction) :
    bulk_update [] rows = rows := by
  unfold bulk_update
  simp

theorem recalc_fixpoint {db : DB} (hn : idsNodup db.rows) :
    (recalculate_running_balance (recalculate_running_balance db).1).1
      = (recalculate_running_balance db).1 := by
  have hnil := changedRows_after_recalc hn
  show { (recalculate_running_balance db).1 with
      rows := bulk_update
        (changedRows 0 (orderedRows (recalculate_running_balance db).1.rows))
        (recalculate_running_balance db).1.rows }
    = (recalculate_running_balance db).1
  rw [hnil, bulk_update_nil]

/-! ## Claim C1 -/

/-- C1: after `recalculate_running_balance` runs on any set of entries (any
table with unique primary keys), every entry's `running_balance` equals the
sum of `amount` over all entries at or before it in the total order
(`occurred_at` ascending, `id` ascending).  In particular an entry inserted
with an earlier timestamp shifts the balance of every chronologically later
entry, since each balance is determined by this prefix sum. -/
theorem c1_running_balance_is_prefix_sum (db : DB) (hn : idsNodup db.rows) :
    ∀ t ∈ (recalculate_running_balance db).1.rows,
      t.running_balance
        = specPrefixBalance (recalculate_running_balance db).1.rows t :=
  recalc_invariant hn

/-- Witness for C1 at the spec §8 out-of-order example: entries
`{t=3: +50}, {t=1: +100}, {t=2: -30}` submitted in that order; the entry at
`t=3` ends up storing `120`, the prefix sum of the whole sequence. -/
theorem c1_running_balance_is_prefix_sum_witness :
    (⟨0, some "A", some "deposit", 50, some 3, 120, false⟩ : Transaction).running_balance
      = specPrefixBalance
          (recalculate_running_balance
            ⟨[⟨0, some "A", some "deposit", 50, some 3, 0, false⟩,
              ⟨1, some "B", some "deposit", 100, some 1, 0, false⟩,
              ⟨2, some "C", some "expense", -30, some 2, 0, false⟩], 3⟩).1.rows
          ⟨0, some "A", some "deposit", 50, some 3, 120, false⟩ :=
  c1_running_balance_is_prefix_sum
    ⟨[⟨0, some "A", some "deposit", 50, some 3, 0, false⟩,
      ⟨1, some "B", some "deposit", 100, some 1, 0, false⟩,
      ⟨2, some "C", some "expense", -30, some 2, 0, false⟩], 3⟩
    (by decide) _ (by decide)

/-! ## Claim C4 -/

/-- C4: the recompute is idempotent — calling
`recalculate_running_balance` twice in a row with no intervening insert
performs zero writes on the second call (the list handed to `bulk_update`
is empty), and the second call leaves the table exactly as the first call
left it. -/
theorem c4_recompute_idempotent (db : DB) (hn : idsNodup db.rows) :
    (recalculate_running_balance (recalculate_running_balance db).1).2 = 0
      ∧ (recalculate_running_balance (recalculate_running_balance db).1).1
          = (recalculate_running_balance db).1 := by
  constructor
  · show (changedRows 0
      (orderedRows (recalculate_running_balance db).1.rows)).length = 0
    rw [changedRows_after_recalc hn]
    rfl
  · exact recalc_fixpoint hn

/-- Witness for C4 on a concrete three-entry ledger. -/
theorem c4_recompute_idempotent_witness :
    (recalculate_running_balance
      (recalculate_running_balance
        ⟨[⟨0, some "A", some "deposit", 50, some 3, 0, false⟩,
          ⟨1, some "B", some "deposit", 100, some 1, 0, false⟩,
          ⟨2, some "C", some "expense", -30, some 2, 0, false⟩], 3⟩).1).2 = 0 :=
  (c4_recompute_idempotent
    ⟨[⟨0, some "A", some "deposit", 50, some 3, 0, false⟩,
      ⟨1, some "B", some "deposit", 100, some 1, 0, false⟩,
      ⟨2, some "C", some "expense", -30, some 2, 0, false⟩], 3⟩
    (by decide)).1

/-! ## Claim C5 -/

/-- C5: an Expense submission through the add view with a form-valid amount
is rejected with the insufficient-balance error whenever the current total
balance `B` (the `running_balance` of the chronologically last entry, or
zero on an empty ledger) satisfies `B < abs(amount)`; the ledger is returned
unchanged — no entry is written. -/
theorem c5_insufficient_balance_rejected (db : DB) (a : Int) (now : Nat)
    (uuidHex : String) (hform : form_is_valid "expense" a)
    (hbal : currentTotalBalance db < |a|) :
    add_transaction db "expense" a now uuidHex
      = (AddOutcome.notEnoughBalance, db) := by
  unfold add_transaction
  rw [if_neg (not_not_intro hform), if_pos ⟨rfl, hbal⟩]

/-- Witness for C5 at the spec §8 example: stored balance 50.00, Expense of
200.00 submitted — rejected, ledger unchanged. -/
theorem c5_insufficient_balance_rejected_witness :
    add_transaction
        ⟨[⟨0, some "A", some "deposit", 5000, some 3, 5000, false⟩], 1⟩
        "expense" 20000 10 "0123456789abcdef0123456789abcdef"
      = (AddOutcome.notEnoughBalance,
          ⟨[⟨0, some "A", some "deposit", 5000, some 3, 5000, false⟩], 1⟩) :=
  c5_insufficient_balance_rejected
    ⟨[⟨0, some "A", some "deposit", 5000, some 3, 5000, false⟩], 1⟩
    20000 10 "0123456789abcdef0123456789abcdef" (by decide) (by decide)

/-! ## Claim C6 -/

/-- C6: an Expense submission through the add view that passes the form and
the balance check is rejected with the daily-limit error whenever the count
of Expense entries in the submission's calendar day, including the new one,
would exceed the threshold of 200 (`expenses_today_count + 1 > 200`); the
ledger is returned unchanged, so the new entry is not present afterward.
The balance check precedes this check in the source, hence the `hbal`
hypothesis. -/
theorem c6_daily_limit_rejected (db : DB) (a : Int) (now : Nat)
    (uuidHex : String) (hform : form_is_valid "expense" a)
    (hbal : ¬ currentTotalBalance db < |a|)
    (hcount : expensesToday db now + 1 > TRANSACTION_LIMIT_PER_DAY) :
    add_transaction db "expense" a now uuidHex
      = (AddOutcome.tooManyExpensesToday, db) := by
  unfold add_transaction
  rw [if_neg (not_not_intro hform), if_neg (fun h => hbal h.2),
    if_pos ⟨rfl, hcount⟩]

set_option maxRecDepth 40000 in
/-- Witness for C6: a ledger holding one large deposit and 200 expenses
recorded in the same calendar day as the submission; one more expense is
rejected with the daily-limit error and the ledger is unchanged. -/
theorem c6_daily_limit_rejected_witness :
    add_transaction
        ⟨⟨0, none, some "deposit", 1000000, some 10, 900000, false⟩ ::
          ((List.range 200).map fun i =>
            ⟨i + 1, none, some "expense", -100, some 10, 900000, false⟩), 201⟩
        "expense" 100 50 "0123456789abcdef0123456789abcdef"
      = (AddOutcome.tooManyExpensesToday,
          ⟨⟨0, none, some "deposit", 1000000, some 10, 900000, false⟩ ::
            ((List.range 200).map fun i =>
              ⟨i + 1, none, some "expense", -100, some 10, 900000, false⟩), 201⟩) :=
  c6_daily_limit_rejected
    ⟨⟨0, none, some "deposit", 1000000, some 10, 900000, false⟩ ::
      ((List.range 200).map fun i =>
        ⟨i + 1, none, some "expense", -100, some 10, 900000, false⟩), 201⟩
    100 50 "0123456789abcdef0123456789abcdef" (by decide) (by decide) (by decide)

/-! ## The successful admission path -/

/-- The database state produced by a successful admission: the new entry
appended and one recomputation run. -/
def afterAdd (db : DB) (ty : String) (a : Int) (now : Nat)
    (uuidHex : String) : DB :=
  (recalculate_running_balance
    ⟨db.rows ++ [newEntry db ty a now uuidHex], db.nextId + 1⟩).1

theorem specPrefixBalance_append (l₁ l₂ : List Transaction) (t : Transaction) :
    specPrefixBalance (l₁ ++ l₂) t
      = specPrefixBalance l₁ t + specPrefixBalance l₂ t := by
  unfold specPrefixBalance
  rw [List.filter_append, List.map_append, List.sum_append]

theorem specPrefixBalance_singleton (e t : Transaction) :
    specPrefixBalance [e] t = if keyLe e t then e.amount else 0 := by
  unfold specPrefixBalance
  by_cases h : keyLe e t
  · simp [List.filter_cons, decide_eq_true h, h]
  · simp [List.filter_cons, h]

theorem idsNodup_append_fresh {db : DB} (hok : db.ok) {e : Transaction}
    (he : e.id = db.nextId) : idsNodup (db.rows ++ [e]) := by
  unfold idsNodup
  rw [List.map_append]
  rw [List.nodup_append]
  refine ⟨hok.1, List.nodup_singleton _, ?_⟩
  intro x hx
  rcases List.mem_map.mp hx with ⟨r, hr, rfl⟩
  have := hok.2 r hr
  simp only [List.map_cons, List.map_nil]
  intro hmem
  rcases List.mem_singleton.mp hmem with heq
  omega

/-- A stored entry whose timestamp does not exceed `now` and whose key is
below the fresh one is key-below the new entry. -/
theorem keyLe_to_new {r e : Transaction}
    (hca : tsLt r.created_at e.created_at = true ∨ r.created_at = e.created_at)
    (hid : r.id ≤ e.id) : keyLe r e := by
  rcases hca with h | h
  · exact Or.inl h
  · exact Or.inr ⟨h, hid⟩

/-- The new entry is strictly key-above every stored entry whose timestamp
does not exceed `now` and whose primary key is older. -/
theorem not_keyLe_new {r e : Transaction}
    (hca : tsLt r.created_at e.created_at = true ∨ r.created_at = e.created_at)
    (hid : r.id < e.id) : ¬ keyLe e r := by
  intro hle
  rcases hle with h | ⟨heq, hle⟩
  · rcases hca with h' | h'
    · rw [tsLt_asymm h'] at h
      exact absurd h (by simp)
    · rw [h', tsLt_irrefl] at h
      exact absurd h (by simp)
  · rcases hca with h' | h'
    · rw [heq, tsLt_irrefl] at h'
      exact absurd h' (by simp)
    · omega

/-- Case analysis of the admission view: either the request is rejected and
the database is returned untouched, or all three checks passed and the
result is the recomputed database with the new entry, whose response carries
the refreshed entry and the new total balance. -/
theorem add_transaction_cases (db : DB) (ty : String) (a : Int) (now : Nat)
    (u : String) (hok : db.ok) :
    ((add_transaction db ty a now u).2 = db
        ∧ ∀ e tb, (add_transaction db ty a now u).1 ≠ AddOutcome.success e tb)
      ∨ (form_is_valid ty a
          ∧ ¬ (ty = "expense" ∧ currentTotalBalance db < |a|)
          ∧ ¬ (ty = "expense" ∧ expensesToday db now + 1 > TRANSACTION_LIMIT_PER_DAY)
          ∧ add_transaction db ty a now u
              = (AddOutcome.success
                  (((afterAdd db ty a now u).rows.find?
                      fun r => r.id == (newEntry db ty a now u).id).getD
                    (newEntry db ty a now u))
                  (currentTotalBalance (afterAdd db ty a now u)),
                 afterAdd db ty a now u)) := by
  by_cases h1 : form_is_valid ty a
  case neg =>
    left
    unfold add_transaction
    rw [if_pos h1]
    exact ⟨rfl, by intro e tb h; cases h⟩
  · by_cases h2 : ty = "expense" ∧ currentTotalBalance db < |a|
    · left
      unfold add_transaction
      rw [if_neg (not_not_intro h1), if_pos h2]
      exact ⟨rfl, by intro e tb h; cases h⟩
    · by_cases h3 : ty = "expense" ∧ expensesToday db now + 1 > TRANSACTION_LIMIT_PER_DAY
      · left
        unfold add_transaction
        rw [if_neg (not_not_intro h1), if_neg h2, if_pos h3]
        exact ⟨rfl, by intro e tb h; cases h⟩
      · right
        refine ⟨h1, h2, h3, ?_⟩
        have hn1 : idsNodup (db.rows ++ [newEntry db ty a now u]) :=
          idsNodup_append_fresh hok rfl
        have hfix : (recalculate_running_balance (afterAdd db ty a now u)).1
            = afterAdd db ty a now u :=
          @recalc_fixpoint ⟨db.rows ++ [newEntry db ty a now u], db.nextId + 1⟩ hn1
        unfold add_transaction
        rw [if_neg (not_not_intro h1), if_neg h2, if_neg h3]
        show (AddOutcome.success
            (((recalculate_running_balance (afterAdd db ty a now u)).1.rows.find?
                fun r => r.id == (newEntry db ty a now u).id).getD
              (newEntry db ty a now u))
            (currentTotalBalance (recalculate_running_balance (afterAdd db ty a now u)).1),
          (recalculate_running_balance (afterAdd db ty a now u)).1) = _
        rw [hfix]

/-! ## The non-negative balance invariant of the single-entry path -/

/-- The inductive invariant carried along `ReachableAdd`: a well-formed
table whose balances are the prefix sums and are all non-negative. -/
def Consistent (db : DB) : Prop :=
  db.ok ∧ (∀ r ∈ db.rows, r.running_balance = specPrefixBalance db.rows r)
    ∧ ∀ r ∈ db.rows, 0 ≤ r.running_balance

theorem consistent_total_nonneg {db : DB} (hc : Consistent db) :
    0 ≤ currentTotalBalance db := by
  unfold currentTotalBalance
  rcases hl : lastByKey db with _ | m
  · exact le_refl 0
  · show 0 ≤ m.running_balance
    have hmo : m ∈ orderedRows db.rows := by
      rcases List.getLast?_eq_some_iff.mp hl with ⟨ys, hys⟩
      rw [hys]
      exact List.mem_append.mpr (Or.inr (List.mem_singleton.mpr rfl))
    exact hc.2.2 m ((orderedRows_perm db.rows).mem_iff.mp hmo)

theorem consistent_step {db : DB} (hc : Consistent db) (ty : String)
    (a : Int) (now : Nat) (u : String)
    (hnow : ∀ r ∈ db.rows,
      tsLt r.created_at (some now) = true ∨ r.created_at = some now) :
    Consistent (add_transaction db ty a now u).2 := by
  rcases add_transaction_cases db ty a now u hc.1 with ⟨hdb, _⟩ | ⟨h1, h2, h3, heq⟩
  · rw [hdb]
    exact hc
  · rw [heq]
    show Consistent (afterAdd db ty a now u)
    have hn1 : idsNodup (db.rows ++ [newEntry db ty a now u]) :=
      idsNodup_append_fresh hc.1 rfl
    have hca : ∀ r ∈ db.rows,
        tsLt r.created_at (newEntry db ty a now u).created_at = true
          ∨ r.created_at = (newEntry db ty a now u).created_at := hnow
    have hup : ∀ r ∈ db.rows, keyLe r (newEntry db ty a now u) := by
      intro r hr
      exact keyLe_to_new (hca r hr) (Nat.le_of_lt (hc.1.2 r hr))
    have hdown : ∀ r ∈ db.rows, ¬ keyLe (newEntry db ty a now u) r := by
      intro r hr
      exact not_keyLe_new (hca r hr) (hc.1.2 r hr)
    have hrows : (afterAdd db ty a now u).rows
        = (db.rows ++ [newEntry db ty a now u]).map fun r =>
            setBalance r
              (specPrefixBalance (db.rows ++ [newEntry db ty a now u]) r) :=
      @recalc_rows_eq ⟨db.rows ++ [newEntry db ty a now u], db.nextId + 1⟩ hn1
    have hold : ∀ r ∈ db.rows,
        specPrefixBalance (db.rows ++ [newEntry db ty a now u]) r
          = r.running_balance := by
      intro r hr
      rw [specPrefixBalance_append, specPrefixBalance_singleton,
        if_neg (hdown r hr), hc.2.1 r hr]
      omega
    have hnewbal :
        specPrefixBalance (db.rows ++ [newEntry db ty a now u])
            (newEntry db ty a now u)
          = currentTotalBalance db + (newEntry db ty a now u).amount := by
      rw [specPrefixBalance_append, specPrefixBalance_singleton,
        if_pos (keyLe_refl _), currentTotalBalance_eq_total hc.2.1]
      have : db.rows.filter
          (fun r => decide (keyLe r (newEntry db ty a now u))) = db.rows :=
        List.filter_eq_self.mpr fun r hr => decide_eq_true (hup r hr)
      unfold specPrefixBalance
      rw [this]
    have hids : (afterAdd db ty a now u).rows.map (·.id)
        = (db.rows ++ [newEntry db ty a now u]).map (·.id) := by
      rw [hrows, List.map_map]
      rfl
    have hnext : (afterAdd db ty a now u).nextId = db.nextId + 1 := rfl
    refine ⟨⟨?_, ?_⟩, ?_, ?_⟩
    · unfold idsNodup
      rw [hids]
      exact hn1
    · intro r hr
      rw [hrows] at hr
      rcases List.mem_map.mp hr with ⟨r₀, hr₀, rfl⟩
      rw [hnext]
      show r₀.id < db.nextId + 1
      rcases List.mem_append.mp hr₀ with h | h
      · exact Nat.lt_succ_of_lt (hc.1.2 r₀ h)
      · rcases List.mem_singleton.mp h with rfl
        exact Nat.lt_succ_self _
    · exact @recalc_invariant
        ⟨db.rows ++ [newEntry db ty a now u], db.nextId + 1⟩ hn1
    · intro r hr
      rw [hrows] at hr
      rcases List.mem_map.mp hr with ⟨r₀, hr₀, rfl⟩
      show 0 ≤ specPrefixBalance (db.rows ++ [newEntry db ty a now u]) r₀
      rcases List.mem_append.mp hr₀ with h | h
      · rw [hold r₀ h]
        exact hc.2.2 r₀ h
      · rcases List.mem_singleton.mp h with rfl
        rw [hnewbal]
        have hB : 0 ≤ currentTotalBalance db := consistent_total_nonneg hc
        have hapos : 0 < a := h1.2.1
        rcases h1.1 with hty | hty
        · subst hty
          have hdep : (newEntry db "deposit" a now u).amount = a := by
            show normalizeSign (some "deposit") a = a
            unfold normalizeSign
            rw [if_neg (by simp), if_neg (by omega)]
          rw [hdep]
          omega
        · subst hty
          have hexp : (newEntry db "expense" a now u).amount = -a := by
            show normalizeSign (some "expense") a = -a
            unfold normalizeSign
            rw [if_pos ⟨rfl, hapos⟩]
          have hB2 : ¬ currentTotalBalance db < |a| := fun hlt => h2 ⟨rfl, hlt⟩
          rw [hexp]
          rw [abs_of_pos hapos] at hB2
          omega

theorem reachableAdd_consistent {db : DB} (h : ReachableAdd db) :
    Consistent db := by
  induction h with
  | empty =>
    refine ⟨⟨?_, ?_⟩, ?_, ?_⟩ <;> simp [idsNodup]
  | step db ty a now u hdb hnow ih =>
    exact consistent_step ih ty a now u hnow

/-! ## Claim C2 -/

/-- C2 is false as stated: the batch-import view runs no balance check, so
the import of a single Expense record into an empty ledger materializes a state
in which an entry has a negative `running_balance`.  Concretely, importing
`{id: "X", amount: 50.00, type: expense, createdAt: t=5}` leaves the table
holding one row with `running_balance = -50.00`. -/
theorem c2_counterexample_import_negative :
    ((import_transactions ⟨[], 0⟩
        [⟨some "X", some 5000, some "expense", some (.good 5)⟩] 10).2.rows.all
      fun r => decide (0 ≤ r.running_balance)) = false := by decide

/-- C2 amended: in every state reachable through the single-entry admission
path alone (with submission times never behind the stored timestamps), no
entry's `running_balance` is negative — the pre-insertion balance check
makes the AddEntry path preserve non-negativity; batch imports, which run
no balance check, are excluded. -/
theorem c2_amended_no_negative_balance (db : DB) (h : ReachableAdd db) :
    ∀ r ∈ db.rows, 0 ≤ r.running_balance :=
  (reachableAdd_consistent h).2.2

/-- Witness for the amended C2: one deposit of 1.00 admitted into the empty
ledger; the stored row carries balance `1.00 ≥ 0`. -/
theorem c2_amended_no_negative_balance_witness :
    0 ≤ (⟨0, some "ABCDEF01", some "deposit", 100, some 5, 100, false⟩ :
      Transaction).running_balance :=
  c2_amended_no_negative_balance _
    (ReachableAdd.step ⟨[], 0⟩ "deposit" 100 5
      "abcdef0123456789abcdef0123456789" ReachableAdd.empty
      (fun r hr => absurd hr (List.not_mem_nil r)))
    _ (by decide)

/-! ## Structure of the batch-import view loop -/

theorem viewProcess_cons_none (db : DB) (now : Nat) (ram : Option Int)
    (rty : Option String) (rca : Option TsField) (rs : List RawRecord) :
    viewProcess db now (⟨none, ram, rty, rca⟩ :: rs)
      = ((viewProcess db now rs).1, (viewProcess db now rs).2.1 + 1,
         (viewProcess db now rs).2.2) := rfl

theorem viewProcess_cons_empty (db : DB) (now : Nat) (ram : Option Int)
    (rty : Option String) (rca : Option TsField) (rs : List RawRecord) :
    viewProcess db now (⟨some "", ram, rty, rca⟩ :: rs)
      = ((viewProcess db now rs).1, (viewProcess db now rs).2.1 + 1,
         (viewProcess db now rs).2.2) := rfl

theorem viewProcess_cons_dup (db : DB) (now : Nat) {cid : String}
    (ram : Option Int) (rty : Option String) (rca : Option TsField)
    (rs : List RawRecord) (hc : cid ≠ "") (hex : codeExists db cid) :
    viewProcess db now (⟨some cid, ram, rty, rca⟩ :: rs)
      = ((viewProcess db now rs).1, (viewProcess db now rs).2.1 + 1,
         (viewProcess db now rs).2.2) := by
  rw [viewProcess]
  dsimp only
  rw [if_neg hc, if_pos hex]

theorem viewProcess_cons_new (db : DB) (now : Nat) {cid : String}
    (ram : Option Int) (rty : Option String) (rca : Option TsField)
    (rs : List RawRecord) (hc : cid ≠ "") (hex : ¬ codeExists db cid) :
    viewProcess db now (⟨some cid, ram, rty, rca⟩ :: rs)
      = ((viewProcess db now rs).1 + 1, (viewProcess db now rs).2.1,
         mkImportRow cid ⟨some cid, ram, rty, rca⟩ now
           :: (viewProcess db now rs).2.2) := by
  rw [viewProcess]
  dsimp only
  rw [if_neg hc, if_neg hex]

theorem viewProcess_skipped (db : DB) (now : Nat) (recs : List RawRecord) :
    (viewProcess db now recs).2.1 = recs.countP (viewSkip db) := by
  induction recs with
  | nil => rfl
  | cons r rs ih =>
    obtain ⟨rid, ram, rty, rca⟩ := r
    cases rid with
    | none =>
      rw [viewProcess_cons_none, List.countP_cons]
      simp [viewSkip, ih]
    | some cid =>
      by_cases hc : cid = ""
      · subst hc
        rw [viewProcess_cons_empty, List.countP_cons]
        simp [viewSkip, ih]
      · by_cases hex : codeExists db cid
        · rw [viewProcess_cons_dup db now ram rty rca rs hc hex,
            List.countP_cons]
          simp [viewSkip, hc, hex, ih]
        · rw [viewProcess_cons_new db now ram rty rca rs hc hex,
            List.countP_cons]
          simp [viewSkip, hc, hex, ih]

theorem viewProcess_imported (db : DB) (now : Nat) (recs : List RawRecord) :
    (viewProcess db now recs).1 = (viewProcess db now recs).2.2.length := by
  induction recs with
  | nil => rfl
  | cons r rs ih =>
    obtain ⟨rid, ram, rty, rca⟩ := r
    cases rid with
    | none =>
      rw [viewProcess_cons_none]
      exact ih
    | some cid =>
      by_cases hc : cid = ""
      · subst hc
        rw [viewProcess_cons_empty]
        exact ih
      · by_cases hex : codeExists db cid
        · rw [viewProcess_cons_dup db now ram rty rca rs hc hex]
          exact ih
        · rw [viewProcess_cons_new db now ram rty rca rs hc hex]
          show (viewProcess db now rs).1 + 1 = _ + 1
          rw [ih]

theorem viewProcess_pend_mem (db : DB) (now : Nat) (recs : List RawRecord) :
    ∀ p ∈ (viewProcess db now recs).2.2, ∃ r ∈ recs, ∃ cid,
      r.id = some cid ∧ cid ≠ "" ∧ ¬ codeExists db cid
        ∧ p = mkImportRow cid r now := by
  induction recs with
  | nil =>
    intro p hp
    cases hp
  | cons r rs ih =>
    intro p hp
    obtain ⟨rid, ram, rty, rca⟩ := r
    cases rid with
    | none =>
      rw [viewProcess_cons_none] at hp
      rcases ih p hp with ⟨r', hr', rest⟩
      exact ⟨r', List.mem_cons_of_mem _ hr', rest⟩
    | some cid =>
      by_cases hc : cid = ""
      · subst hc
        rw [viewProcess_cons_empty] at hp
        rcases ih p hp with ⟨r', hr', rest⟩
        exact ⟨r', List.mem_cons_of_mem _ hr', rest⟩
      · by_cases hex : codeExists db cid
        · rw [viewProcess_cons_dup db now ram rty rca rs hc hex] at hp
          rcases ih p hp with ⟨r', hr', rest⟩
          exact ⟨r', List.mem_cons_of_mem _ hr', rest⟩
        · rw [viewProcess_cons_new db now ram rty rca rs hc hex] at hp
          rcases List.mem_cons.mp hp with rfl | hp'
          · exact ⟨⟨some cid, ram, rty, rca⟩, List.mem_cons_self _ _,
              cid, rfl, hc, hex, rfl⟩
          · rcases ih p hp' with ⟨r', hr', rest⟩
            exact ⟨r', List.mem_cons_of_mem _ hr', rest⟩

theorem viewProcess_mem_pend (db : DB) (now : Nat) (recs : List RawRecord) :
    ∀ r ∈ recs, ∀ cid, r.id = some cid → cid ≠ "" → ¬ codeExists db cid →
      mkImportRow cid r now ∈ (viewProcess db now recs).2.2 := by
  induction recs with
  | nil =>
    intro r hr
    cases hr
  | cons r₀ rs ih =>
    intro r hr cid hid hc hex
    obtain ⟨rid, ram, rty, rca⟩ := r₀
    rcases List.mem_cons.mp hr with rfl | hr'
    · simp only at hid
      subst hid
      rw [viewProcess_cons_new db now ram rty rca rs hc hex]
      exact List.mem_cons_self _ _
    · have hmem := ih r hr' cid hid hc hex
      cases rid with
      | none =>
        rw [viewProcess_cons_none]
        exact hmem
      | some cid₀ =>
        by_cases hc₀ : cid₀ = ""
        · subst hc₀
          rw [viewProcess_cons_empty]
          exact hmem
        · by_cases hex₀ : codeExists db cid₀
          · rw [viewProcess_cons_dup db now ram rty rca rs hc₀ hex₀]
            exact hmem
          · rw [viewProcess_cons_new db now ram rty rca rs hc₀ hex₀]
            exact List.mem_cons_of_mem _ hmem

/-! ## Facts about bulk_create and the import database -/

theorem assignIds_map_id (n : Nat) (l : List Transaction) :
    (assignIds n l).map (·.id) = List.range' n l.length := by
  induction l generalizing n with
  | nil => rfl
  | cons t ts ih =>
    show n :: (assignIds (n + 1) ts).map (·.id) = List.range' n (ts.length + 1)
    rw [ih]
    rfl

theorem assignIds_mem (n : Nat) (l : List Transaction) :
    ∀ p ∈ assignIds n l, ∃ t ∈ l, p = { t with id := p.id } := by
  induction l generalizing n with
  | nil =>
    intro p hp
    cases hp
  | cons t ts ih =>
    intro p hp
    rcases List.mem_cons.mp hp with rfl | hp'
    · exact ⟨t, List.mem_cons_self _ _, rfl⟩
    · rcases ih (n + 1) p hp' with ⟨t', ht', hpe⟩
      exact ⟨t', List.mem_cons_of_mem _ ht', hpe⟩

theorem mem_assignIds (l : List Transaction) :
    ∀ t ∈ l, ∀ n, ∃ p ∈ assignIds n l, p = { t with id := p.id } := by
  induction l with
  | nil =>
    intro t ht
    cases ht
  | cons t₀ ts ih =>
    intro t ht n
    rcases List.mem_cons.mp ht with rfl | ht'
    · exact ⟨{ t with id := n }, List.mem_cons_self _ _, rfl⟩
    · rcases ih t ht' (n + 1) with ⟨p, hp, hpe⟩
      exact ⟨p, List.mem_cons_of_mem _ hp, hpe⟩

theorem assignIds_countP_code (n : Nat) (l : List Transaction) (c : String) :
    ((assignIds n l).countP fun r => r.code == some c)
      = l.countP fun r => r.code == some c := by
  induction l generalizing n with
  | nil => rfl
  | cons t ts ih =>
    show List.countP _ ({ t with id := n } :: assignIds (n + 1) ts) = _
    rw [List.countP_cons, List.countP_cons, ih]

/-- The freshly keyed batch appended to a well-formed table keeps primary
keys unique. -/
theorem idsNodup_append_assignIds {db : DB} (hok : db.ok)
    (pend : List Transaction) :
    idsNodup (db.rows ++ assignIds db.nextId pend) := by
  unfold idsNodup
  rw [List.map_append, assignIds_map_id, List.nodup_append]
  refine ⟨hok.1, List.nodup_range' _ _, ?_⟩
  intro x hx hx2
  rcases List.mem_map.mp hx with ⟨r, hr, rfl⟩
  have h1 := hok.2 r hr
  rcases List.mem_range'.mp hx2 with ⟨i, hi, heq⟩
  omega

theorem sortPending_perm (now : Nat) (pend : List Transaction) :
    (sortPending now pend).Perm pend :=
  List.perm_insertionSort _ pend

/-- The batch-import view, with its let-bindings spelled out. -/
theorem import_transactions_eq (db : DB) (recs : List RawRecord) (now : Nat) :
    import_transactions db recs now
      = if (viewProcess db now recs).2.2.isEmpty then
          (ViewImportResult.ok
            ⟨(viewProcess db now recs).1, (viewProcess db now recs).2.1,
              currentTotalBalance db⟩, db)
        else if bulkCreateFails db
            (sortPending now (viewProcess db now recs).2.2) then
          (ViewImportResult.serverError, db)
        else
          (ViewImportResult.ok
            ⟨(viewProcess db now recs).1, (viewProcess db now recs).2.1,
              currentTotalBalance (recalculate_running_balance
                ⟨db.rows ++ assignIds db.nextId
                    (sortPending now (viewProcess db now recs).2.2),
                 db.nextId + (sortPending now
                    (viewProcess db now recs).2.2).length⟩).1⟩,
           (recalculate_running_balance
              ⟨db.rows ++ assignIds db.nextId
                  (sortPending now (viewProcess db now recs).2.2),
               db.nextId + (sortPending now
                  (viewProcess db now recs).2.2).length⟩).1) :=
  rfl

/-- The table the batch-import view leaves behind: untouched (no pending
rows, or the INSERT raised and nothing was committed), or the recomputed
appended table. -/
theorem import_rows_cases (db : DB) (recs : List RawRecord) (now : Nat) :
    (import_transactions db recs now).2 = db
      ∨ (import_transactions db recs now).2
          = (recalculate_running_balance
              ⟨db.rows ++ assignIds db.nextId
                  (sortPending now (viewProcess db now recs).2.2),
               db.nextId + (sortPending now
                  (viewProcess db now recs).2.2).length⟩).1 := by
  rw [import_transactions_eq]
  by_cases h1 : (viewProcess db now recs).2.2.isEmpty
  · rw [if_pos h1]
    exact Or.inl rfl
  · rw [if_neg h1]
    by_cases h2 : bulkCreateFails db
        (sortPending now (viewProcess db now recs).2.2)
    · rw [if_pos h2]
      exact Or.inl rfl
    · rw [if_neg h2]
      exact Or.inr rfl

/-- A success response of the batch-import view reports the loop's
counters. -/
theorem import_ok_counts {db : DB} {recs : List RawRecord} {now : Nat}
    {out : ImportOutcome}
    (h : (import_transactions db recs now).1 = ViewImportResult.ok out) :
    out.imported = (viewProcess db now recs).1
      ∧ out.skipped = (viewProcess db now recs).2.1 := by
  rw [import_transactions_eq] at h
  by_cases h1 : (viewProcess db now recs).2.2.isEmpty
  · rw [if_pos h1] at h
    have h' : ViewImportResult.ok
        ⟨(viewProcess db now recs).1, (viewProcess db now recs).2.1,
          currentTotalBalance db⟩ = ViewImportResult.ok out := h
    injection h' with h''
    rw [← h'']
    exact ⟨rfl, rfl⟩
  · rw [if_neg h1] at h
    by_cases h2 : bulkCreateFails db
        (sortPending now (viewProcess db now recs).2.2)
    · rw [if_pos h2] at h
      have h' : ViewImportResult.serverError = ViewImportResult.ok out := h
      cases h'
    · rw [if_neg h2] at h
      have h' : ViewImportResult.ok
          ⟨(viewProcess db now recs).1, (viewProcess db now recs).2.1,
            currentTotalBalance (recalculate_running_balance
              ⟨db.rows ++ assignIds db.nextId
                  (sortPending now (viewProcess db now recs).2.2),
               db.nextId + (sortPending now
                  (viewProcess db now recs).2.2).length⟩).1⟩
          = ViewImportResult.ok out := h
      injection h' with h''
      rw [← h'']
      exact ⟨rfl, rfl⟩

/-- A pending row with a NULL type makes the INSERT raise. -/
theorem bulkCreateFails_of_null_type {db : DB} {l : List Transaction} :
    ∀ t ∈ l, t.type = none → bulkCreateFails db l = true := by
  induction l with
  | nil =>
    intro t ht
    cases ht
  | cons t₀ ts ih =>
    intro t ht hty
    rcases List.mem_cons.mp ht with rfl | ht'
    · show ((t.type == none || _) || _) = true
      rw [hty]
      simp
    · show ((_ || _) || bulkCreateFails db ts) = true
      rw [ih t ht' hty]
      simp

/-! ## Structure of the management-command import -/

theorem cmdPending_mem (db : DB) (recs : List RawRecord) :
    ∀ p ∈ cmdPending db recs, ∃ r ∈ recs, ∃ cid aa ty ts,
      r.id = some cid ∧ r.amount = some aa ∧ r.type = some ty
        ∧ r.createdAt = some ts ∧ ¬ codeExists db cid
        ∧ p = mkCmdRow cid aa ty ts := by
  induction recs with
  | nil =>
    intro p hp
    cases hp
  | cons r rs ih =>
    intro p hp
    obtain ⟨rid, ram, rty, rca⟩ := r
    have hstep : ∀ q ∈ cmdPending db rs, ∃ r' ∈ rs, ∃ cid aa ty ts,
        r'.id = some cid ∧ r'.amount = some aa ∧ r'.type = some ty
          ∧ r'.createdAt = some ts ∧ ¬ codeExists db cid
          ∧ q = mkCmdRow cid aa ty ts := ih
    cases rid with
    | none =>
      rcases hstep p hp with ⟨r', hr', rest⟩
      exact ⟨r', List.mem_cons_of_mem _ hr', rest⟩
    | some cid =>
      cases ram with
      | none =>
        rcases hstep p hp with ⟨r', hr', rest⟩
        exact ⟨r', List.mem_cons_of_mem _ hr', rest⟩
      | some aa =>
        cases rty with
        | none =>
          rcases hstep p hp with ⟨r', hr', rest⟩
          exact ⟨r', List.mem_cons_of_mem _ hr', rest⟩
        | some ty =>
          cases rca with
          | none =>
            rcases hstep p hp with ⟨r', hr', rest⟩
            exact ⟨r', List.mem_cons_of_mem _ hr', rest⟩
          | some ts =>
            by_cases hex : codeExists db cid
            · rw [show cmdPending db (⟨some cid, some aa, some ty, some ts⟩ :: rs)
                  = cmdPending db rs by
                rw [cmdPending]
                dsimp only
                rw [if_pos hex]] at hp
              rcases hstep p hp with ⟨r', hr', rest⟩
              exact ⟨r', List.mem_cons_of_mem _ hr', rest⟩
            · rw [show cmdPending db (⟨some cid, some aa, some ty, some ts⟩ :: rs)
                  = mkCmdRow cid aa ty ts :: cmdPending db rs by
                rw [cmdPending]
                dsimp only
                rw [if_neg hex]] at hp
              rcases List.mem_cons.mp hp with rfl | hp'
              · exact ⟨⟨some cid, some aa, some ty, some ts⟩,
                  List.mem_cons_self _ _, cid, aa, ty, ts,
                  rfl, rfl, rfl, rfl, hex, rfl⟩
              · rcases hstep p hp' with ⟨r', hr', rest⟩
                exact ⟨r', List.mem_cons_of_mem _ hr', rest⟩

/-- The effect of `bulk_create(..., ignore_conflicts=True)`: the table grows
by a sublist of the pending rows, each inserted unchanged apart from its
fresh primary key; nothing else is touched. -/
theorem insertIgnoreConflicts_rows (db : DB) (pend : List Transaction) :
    ∃ newRows, (insertIgnoreConflicts db pend).rows = db.rows ++ newRows
      ∧ ∀ p ∈ newRows, ∃ t ∈ pend, p = { t with id := p.id } := by
  induction pend generalizing db with
  | nil =>
    refine ⟨[], by simp [insertIgnoreConflicts], ?_⟩
    intro p hp
    cases hp
  | cons t ts ih =>
    obtain ⟨tid, tcode, tty, tam, tca, trb, tapi⟩ := t
    cases tcode with
    | none =>
      have hstep : insertIgnoreConflicts db
            (⟨tid, none, tty, tam, tca, trb, tapi⟩ :: ts)
          = insertIgnoreConflicts
              ⟨db.rows ++ [⟨db.nextId, none, tty, tam, tca, trb, tapi⟩],
               db.nextId + 1⟩ ts := rfl
      rcases ih ⟨db.rows ++ [⟨db.nextId, none, tty, tam, tca, trb, tapi⟩],
        db.nextId + 1⟩ with ⟨newRows, hrows, hmem⟩
      refine ⟨⟨db.nextId, none, tty, tam, tca, trb, tapi⟩ :: newRows, ?_, ?_⟩
      · rw [hstep, hrows]
        simp
      · intro p hp
        rcases List.mem_cons.mp hp with rfl | hp'
        · exact ⟨⟨tid, none, tty, tam, tca, trb, tapi⟩,
            List.mem_cons_self _ _, rfl⟩
        · rcases hmem p hp' with ⟨t', ht', hpe⟩
          exact ⟨t', List.mem_cons_of_mem _ ht', hpe⟩
    | some c =>
      have hstep : insertIgnoreConflicts db
            (⟨tid, some c, tty, tam, tca, trb, tapi⟩ :: ts)
          = if codeExists db c then insertIgnoreConflicts db ts
            else insertIgnoreConflicts
              ⟨db.rows ++ [⟨db.nextId, some c, tty, tam, tca, trb, tapi⟩],
               db.nextId + 1⟩ ts := rfl
      by_cases hex : codeExists db c
      · rcases ih db with ⟨newRows, hrows, hmem⟩
        refine ⟨newRows, ?_, ?_⟩
        · rw [hstep, if_pos hex, hrows]
        · intro p hp
          rcases hmem p hp with ⟨t', ht', hpe⟩
          exact ⟨t', List.mem_cons_of_mem _ ht', hpe⟩
      · rcases ih ⟨db.rows ++ [⟨db.nextId, some c, tty, tam, tca, trb, tapi⟩],
          db.nextId + 1⟩ with ⟨newRows, hrows, hmem⟩
        refine ⟨⟨db.nextId, some c, tty, tam, tca, trb, tapi⟩ :: newRows, ?_, ?_⟩
        · rw [hstep, if_neg hex, hrows]
          simp
        · intro p hp
          rcases List.mem_cons.mp hp with rfl | hp'
          · exact ⟨⟨tid, some c, tty, tam, tca, trb, tapi⟩,
              List.mem_cons_self _ _, rfl⟩
          · rcases hmem p hp' with ⟨t', ht', hpe⟩
            exact ⟨t', List.mem_cons_of_mem _ ht', hpe⟩

/-! ## Recomputation runs before the caller observes the state -/

/-- A successful single-entry admission hands the caller a table satisfying
the prefix-sum invariant. -/
theorem add_success_invariant {db : DB} {ty : String} {a : Int} {now : Nat}
    {u : String} {e : Transaction} {tb : Int} {db' : DB} (hok : db.ok)
    (h : add_transaction db ty a now u = (AddOutcome.success e tb, db')) :
    ∀ r ∈ db'.rows, r.running_balance = specPrefixBalance db'.rows r := by
  rcases add_transaction_cases db ty a now u hok with ⟨_, hne⟩ | ⟨_, _, _, heq⟩
  · exact absurd (congrArg Prod.fst h) (hne e tb)
  · have h2 : afterAdd db ty a now u = db' :=
      congrArg Prod.snd (heq.symm.trans h)
    rw [← h2]
    exact @recalc_invariant
      ⟨db.rows ++ [newEntry db ty a now u], db.nextId + 1⟩
      (idsNodup_append_fresh hok rfl)

/-- A batch import through the view that succeeds and inserts at least one
record hands the caller a table satisfying the prefix-sum invariant. -/
theorem import_success_invariant {db : DB} (hok : db.ok)
    (recs : List RawRecord) (now : Nat) {out : ImportOutcome}
    (hres : (import_transactions db recs now).1 = ViewImportResult.ok out)
    (himp : out.imported ≠ 0) :
    ∀ r ∈ (import_transactions db recs now).2.rows,
      r.running_balance
        = specPrefixBalance (import_transactions db recs now).2.rows r := by
  have himp' : (viewProcess db now recs).1 ≠ 0 := by
    rw [← (import_ok_counts hres).1]
    exact himp
  have hemp : ¬ (viewProcess db now recs).2.2.isEmpty = true := by
    intro hemp
    apply himp'
    rw [viewProcess_imported, List.isEmpty_iff.mp hemp]
    rfl
  have hfail : ¬ bulkCreateFails db
      (sortPending now (viewProcess db now recs).2.2) = true := by
    intro hfail
    rw [import_transactions_eq, if_neg hemp, if_pos hfail] at hres
    have h' : ViewImportResult.serverError = ViewImportResult.ok out := hres
    cases h'
  rw [import_transactions_eq, if_neg hemp, if_neg hfail]
  exact recalc_invariant (idsNodup_append_assignIds hok _)

/-- The management-command import never recomputes: the table it leaves
behind is the old rows untouched plus the new rows still carrying the
default balance `0.00`. -/
theorem command_handle_no_recompute (db : DB) (recs : List RawRecord) :
    ∃ newRows, (command_handle db recs).2.rows = db.rows ++ newRows
      ∧ ∀ p ∈ newRows, p.running_balance = 0 := by
  rcases insertIgnoreConflicts_rows db (cmdPending db recs)
    with ⟨newRows, hrows, hmem⟩
  refine ⟨newRows, hrows, ?_⟩
  intro p hp
  rcases hmem p hp with ⟨t, ht, hpe⟩
  rcases cmdPending_mem db recs t ht
    with ⟨r, hr, cid, aa, ty, ts, _, _, _, _, _, hteq⟩
  rw [hpe, hteq]
  rfl

/-! ## Claim C3 -/

/-- C3 is false as stated: the management-command batch import runs no
recomputation (its `bulk_create` bypasses `Transaction.save`), so the state
it leaves violates the prefix-sum invariant.  Concretely, importing a single
deposit of 50.00 into an empty ledger leaves a row whose stored
`running_balance` (the default `0.00`) differs from its prefix sum
(`50.00`). -/
theorem c3_counterexample_command_stale :
    ((command_handle ⟨[], 0⟩
        [⟨some "D", some 5000, some "deposit", some (.good 5)⟩]).2.rows.all
      fun r => decide (r.running_balance
        = specPrefixBalance (command_handle ⟨[], 0⟩
            [⟨some "D", some 5000, some "deposit", some (.good 5)⟩]).2.rows r))
      = false := by decide

/-- C3 amended: the balance recomputation runs synchronously before the
caller observes the new state after every successful single-entry add and
after every view batch import that returns a success response having
inserted at least one record — in both cases the state handed back
satisfies the prefix-sum invariant for all entries, with no stale values.
The management-command import, however, never recomputes: it appends rows
that still carry the default balance `0.00` and leaves all pre-existing
balances untouched. -/
theorem c3_amended_recompute_before_observation :
    (∀ (db : DB) (ty : String) (a : Int) (now : Nat) (u : String)
        (e : Transaction) (tb : Int) (db' : DB), db.ok →
      add_transaction db ty a now u = (AddOutcome.success e tb, db') →
      ∀ r ∈ db'.rows, r.running_balance = specPrefixBalance db'.rows r)
    ∧ (∀ (db : DB) (recs : List RawRecord) (now : Nat) (out : ImportOutcome),
        db.ok →
        (import_transactions db recs now).1 = ViewImportResult.ok out →
        out.imported ≠ 0 →
        ∀ r ∈ (import_transactions db recs now).2.rows,
          r.running_balance
            = specPrefixBalance (import_transactions db recs now).2.rows r)
    ∧ ∀ (db : DB) (recs : List RawRecord),
        ∃ newRows, (command_handle db recs).2.rows = db.rows ++ newRows
          ∧ ∀ p ∈ newRows, p.running_balance = 0 :=
  ⟨fun _ _ _ _ _ _ _ _ hok h => add_success_invariant hok h,
   fun _ recs now _ hok hres himp =>
     import_success_invariant hok recs now hres himp,
   command_handle_no_recompute⟩

/-- Witness for the amended C3: a deposit of 10.00 admitted on top of a
50.00 ledger; the refreshed row the caller reads back stores `60.00`, its
prefix sum. -/
theorem c3_amended_recompute_before_observation_witness :
    (⟨1, some "ABCDEF01", some "deposit", 1000, some 10, 6000, false⟩ :
        Transaction).running_balance
      = specPrefixBalance
          [⟨0, some "A", some "deposit", 5000, some 3, 5000, false⟩,
           ⟨1, some "ABCDEF01", some "deposit", 1000, some 10, 6000, false⟩]
          ⟨1, some "ABCDEF01", some "deposit", 1000, some 10, 6000, false⟩ := by
  have h := c3_amended_recompute_before_observation.1
    ⟨[⟨0, some "A", some "deposit", 5000, some 3, 5000, false⟩], 1⟩
    "deposit" 1000 10 "abcdef0123456789abcdef0123456789"
    ⟨1, some "ABCDEF01", some "deposit", 1000, some 10, 6000, false⟩ 6000
    ⟨[⟨0, some "A", some "deposit", 5000, some 3, 5000, false⟩,
      ⟨1, some "ABCDEF01", some "deposit", 1000, some 10, 6000, false⟩], 2⟩
    (by decide) (by decide)
    ⟨1, some "ABCDEF01", some "deposit", 1000, some 10, 6000, false⟩ (by decide)
  exact h

/-! ## Sign normalization -/

/-- The sign invariant of §3: deposits are non-negative, expenses are
non-positive. -/
def signOk (r : Transaction) : Prop :=
  (r.type = some "expense" → r.amount ≤ 0)
    ∧ (r.type = some "deposit" → 0 ≤ r.amount)

instance (r : Transaction) : Decidable (signOk r) := by
  unfold signOk
  infer_instance

theorem normalizeSign_expense (a : Int) : normalizeSign (some "expense") a ≤ 0 := by
  unfold normalizeSign
  split_ifs with h1 h2
  · obtain ⟨-, ha⟩ := h1
    omega
  · exact absurd h2.1 (by simp)
  · have : ¬ 0 < a := fun hlt => h1 ⟨rfl, hlt⟩
    omega

theorem normalizeSign_deposit (a : Int) : 0 ≤ normalizeSign (some "deposit") a := by
  unfold normalizeSign
  split_ifs with h1 h2
  · exact absurd h1.1 (by simp)
  · exact abs_nonneg a
  · have : ¬ a < 0 := fun hlt => h2 ⟨rfl, hlt⟩
    omega

theorem normalizeSign_signOk (oty : Option String) (a : Int) :
    (oty = some "expense" → normalizeSign oty a ≤ 0)
      ∧ (oty = some "deposit" → 0 ≤ normalizeSign oty a) := by
  constructor
  · intro h
    subst h
    exact normalizeSign_expense a
  · intro h
    subst h
    exact normalizeSign_deposit a

theorem signOk_setBalance {r : Transaction} (h : signOk r) (c : Int) :
    signOk (setBalance r c) := h

theorem signOk_newEntry (db : DB) (ty : String) (a : Int) (now : Nat)
    (u : String) : signOk (newEntry db ty a now u) :=
  normalizeSign_signOk (some ty) a

theorem signOk_mkImportRow (cid : String) (r : RawRecord) (now : Nat) :
    signOk (mkImportRow cid r now) :=
  normalizeSign_signOk r.type (r.amount.getD 0)

/-! ## Claim C7 -/

/-- C7 is false as stated: the management-command import path performs no
sign normalization (`bulk_create` bypasses `Transaction.save`), so importing
`{id: "X", amount: +10.00, type: expense, createdAt: t=5}` stores an Expense
row with a positive amount, violating the sign invariant. -/
theorem c7_counterexample_command_sign :
    ((command_handle ⟨[], 0⟩
        [⟨some "X", some 1000, some "expense", some (.good 5)⟩]).2.rows.all
      fun r => decide (signOk r)) = false := by decide

/-- C7 amended: sign normalization happens on the single-entry admission
path (`Transaction.save`) and on the batch-import view path, so those two
paths preserve the sign invariant `kind = Deposit ⇒ amount ≥ 0`,
`kind = Expense ⇒ amount ≤ 0` for every stored entry; an Expense submitted
as `+10.00` is stored as `-10.00` and a Deposit submitted as `-10.00` is
stored as `+10.00`.  The management-command import stores amounts exactly
as received and can therefore violate the invariant. -/
theorem c7_amended_sign_normalization :
    (∀ (db : DB) (ty : String) (a : Int) (now : Nat) (u : String)
        (e : Transaction) (tb : Int) (db' : DB), db.ok →
      (∀ r ∈ db.rows, signOk r) →
      add_transaction db ty a now u = (AddOutcome.success e tb, db') →
      ∀ r ∈ db'.rows, signOk r)
    ∧ (∀ (db : DB) (recs : List RawRecord) (now : Nat), db.ok →
        (∀ r ∈ db.rows, signOk r) →
        ∀ r ∈ (import_transactions db recs now).2.rows, signOk r)
    ∧ normalizeSign (some "expense") 1000 = -1000
    ∧ normalizeSign (some "deposit") (-1000) = 1000 := by
  refine ⟨?_, ?_, by decide, by decide⟩
  · intro db ty a now u e tb db' hok hsign h
    rcases add_transaction_cases db ty a now u hok with ⟨_, hne⟩ | ⟨_, _, _, heq⟩
    · exact absurd (congrArg Prod.fst h) (hne e tb)
    · have h2 : afterAdd db ty a now u = db' :=
        congrArg Prod.snd (heq.symm.trans h)
    -- the recomputed table is the appended table with balances rewritten
      rw [← h2]
      intro r hr
      have haf : (afterAdd db ty a now u).rows
          = (db.rows ++ [newEntry db ty a now u]).map fun r =>
              setBalance r
                (specPrefixBalance (db.rows ++ [newEntry db ty a now u]) r) :=
        @recalc_rows_eq
          ⟨db.rows ++ [newEntry db ty a now u], db.nextId + 1⟩
          (idsNodup_append_fresh hok rfl)
      rw [haf] at hr
      rcases List.mem_map.mp hr with ⟨r₀, hr₀, rfl⟩
      refine signOk_setBalance ?_ _
      rcases List.mem_append.mp hr₀ with h' | h'
      · exact hsign r₀ h'
      · rcases List.mem_singleton.mp h' with rfl
        exact signOk_newEntry db ty a now u
  · intro db recs now hok hsign
    rcases import_rows_cases db recs now with hcase | hcase
    · rw [hcase]
      exact hsign
    · rw [hcase]
      intro r hr
      rw [recalc_rows_eq (idsNodup_append_assignIds hok _)] at hr
      rcases List.mem_map.mp hr with ⟨r₀, hr₀, rfl⟩
      refine signOk_setBalance ?_ _
      rcases List.mem_append.mp hr₀ with h' | h'
      · exact hsign r₀ h'
      · rcases assignIds_mem _ _ r₀ h' with ⟨t, ht, hpe⟩
        have ht' : t ∈ (viewProcess db now recs).2.2 :=
          (sortPending_perm now _).mem_iff.mp ht
        rcases viewProcess_pend_mem db now recs t ht'
          with ⟨rr, _, cid, _, _, _, hteq⟩
        rw [hpe, hteq]
        exact signOk_mkImportRow cid rr now

/-- Witness for the amended C7: the deposit admitted in the C3 witness
scenario satisfies the sign invariant. -/
theorem c7_amended_sign_normalization_witness :
    signOk (⟨1, some "ABCDEF01", some "deposit", 1000, some 10, 6000, false⟩ :
      Transaction) :=
  c7_amended_sign_normalization.1
    ⟨[⟨0, some "A", some "deposit", 5000, some 3, 5000, false⟩], 1⟩
    "deposit" 1000 10 "abcdef0123456789abcdef0123456789"
    ⟨1, some "ABCDEF01", some "deposit", 1000, some 10, 6000, false⟩ 6000
    ⟨[⟨0, some "A", some "deposit", 5000, some 3, 5000, false⟩,
      ⟨1, some "ABCDEF01", some "deposit", 1000, some 10, 6000, false⟩], 2⟩
    (by decide) (by decide) (by decide)
    ⟨1, some "ABCDEF01", some "deposit", 1000, some 10, 6000, false⟩ (by decide)

/-! ## Claim C8 -/

theorem codeExists_of_mem {db : DB} {c : String}
    (hc : ∃ row ∈ db.rows, row.code = some c) : codeExists db c := by
  rcases hc with ⟨row, hrow, hcode⟩
  unfold codeExists
  rw [List.any_eq_true]
  refine ⟨row, hrow, ?_⟩
  rw [hcode]
  simp

/-- The rows a batch import adds through the view never carry a code already
present in the table. -/
theorem import_countP_code {db : DB} (hok : db.ok) (recs : List RawRecord)
    (now : Nat) {c : String} (hex : codeExists db c) :
    ((import_transactions db recs now).2.rows.countP
        fun r => r.code == some c)
      = db.rows.countP fun r => r.code == some c := by
  rcases import_rows_cases db recs now with hcase | hcase
  · rw [hcase]
  · rw [hcase]
    rw [recalc_rows_eq (idsNodup_append_assignIds hok _)]
    rw [List.countP_map]
    show List.countP (fun r : Transaction => r.code == some c)
        (db.rows ++ assignIds db.nextId
          (sortPending now (viewProcess db now recs).2.2))
      = db.rows.countP fun r => r.code == some c
    rw [List.countP_append, assignIds_countP_code]
    have hzero : ((sortPending now (viewProcess db now recs).2.2).countP
        fun r => r.code == some c) = 0 := by
      rw [(sortPending_perm now _).countP_eq]
      rw [List.countP_eq_zero]
      intro p hp
      rcases viewProcess_pend_mem db now recs p hp
        with ⟨rr, _, cid, _, _, hnex, hpe⟩
      rw [hpe]
      show ¬ ((some cid : Option String) == some c) = true
      intro hbeq
      have : cid = c := by simpa using hbeq
      exact hnex (this ▸ hex)
    rw [hzero]
    omega

/-- The rows the management command adds never carry a code already present
in the table. -/
theorem command_countP_code (db : DB) (recs : List RawRecord) {c : String}
    (hex : codeExists db c) :
    ((command_handle db recs).2.rows.countP fun r => r.code == some c)
      = db.rows.countP fun r => r.code == some c := by
  rcases insertIgnoreConflicts_rows db (cmdPending db recs)
    with ⟨newRows, hrows, hmem⟩
  show ((insertIgnoreConflicts db (cmdPending db recs)).rows.countP
      fun r => r.code == some c) = _
  rw [hrows, List.countP_append]
  have hzero : (newRows.countP fun r => r.code == some c) = 0 := by
    rw [List.countP_eq_zero]
    intro p hp
    rcases hmem p hp with ⟨t, ht, hpe⟩
    rcases cmdPending_mem db recs t ht
      with ⟨rr, _, cid, aa, ty, ts, _, _, _, _, hnex, hteq⟩
    rw [hpe, hteq]
    show ¬ ((some cid : Option String) == some c) = true
    intro hbeq
    have : cid = c := by simpa using hbeq
    exact hnex (this ▸ hex)
  rw [hzero]
  omega

/-- C8: in a batch import, a record whose external code already exists in
the ledger is silently skipped and counted — the `skipped_count` of every
success response of the view counts exactly the records that are missing an
identifier, carry an empty one, or duplicate an existing code, and every
record bearing the duplicate code falls in that class — a duplicate is
never an error for the batch, and no second entry with that code is created
on either import path, whatever the batch outcome. -/
theorem c8_duplicate_import_skipped (db : DB) (recs : List RawRecord)
    (now : Nat) (c : String) (hok : db.ok)
    (hc : ∃ row ∈ db.rows, row.code = some c) :
    (∀ out : ImportOutcome,
        (import_transactions db recs now).1 = ViewImportResult.ok out →
        out.skipped = recs.countP (viewSkip db))
      ∧ (∀ r ∈ recs, r.id = some c → viewSkip db r = true)
      ∧ ((import_transactions db recs now).2.rows.countP
            fun r => r.code == some c)
          = (db.rows.countP fun r => r.code == some c)
      ∧ ((command_handle db recs).2.rows.countP fun r => r.code == some c)
          = (db.rows.countP fun r => r.code == some c) := by
  have hex : codeExists db c := codeExists_of_mem hc
  refine ⟨?_, ?_, ?_, ?_⟩
  · intro out hres
    rw [(import_ok_counts hres).2, viewProcess_skipped]
  · intro r _ hid
    unfold viewSkip
    rw [hid]
    simp [hex]
  · exact import_countP_code hok recs now hex
  · exact command_countP_code db recs hex

/-- Witness for C8: importing a batch holding one record that duplicates
the stored code `"X"` and one fresh record — the batch succeeds, the
duplicate is counted in `skipped_count` and no second `"X"` row appears on
either path. -/
theorem c8_duplicate_import_skipped_witness :
    (⟨1, 1, 1700⟩ : ImportOutcome).skipped
      = [⟨some "X", some 500, some "deposit", some (.good 4)⟩,
         ⟨some "Y", some 700, some "deposit", some (.good 6)⟩].countP
          (viewSkip ⟨[⟨0, some "X", some "deposit", 1000, some 3, 1000, false⟩], 1⟩)
    ∧ ((import_transactions
        ⟨[⟨0, some "X", some "deposit", 1000, some 3, 1000, false⟩], 1⟩
        [⟨some "X", some 500, some "deposit", some (.good 4)⟩,
         ⟨some "Y", some 700, some "deposit", some (.good 6)⟩] 10).2.rows.countP
          fun r => r.code == some "X")
        = ([⟨0, some "X", some "deposit", 1000, some 3, 1000, false⟩].countP
            fun r : Transaction => r.code == some "X") := by
  have h := c8_duplicate_import_skipped
    ⟨[⟨0, some "X", some "deposit", 1000, some 3, 1000, false⟩], 1⟩
    [⟨some "X", some 500, some "deposit", some (.good 4)⟩,
     ⟨some "Y", some 700, some "deposit", some (.good 6)⟩] 10 "X"
    (by decide) (by decide)
  obtain ⟨hA, hB, hC, hD⟩ := h
  exact ⟨hA ⟨1, 1, 1700⟩ (by decide), hC⟩

/-! ## Claim C9 -/

/-- C9 is false as stated: in the batch-import view a record that is missing
the `amount` field (but carries an identifier) is not skipped — it is
inserted with `amount` defaulted to `0` and counted as imported, not
skipped. -/
theorem c9_counterexample_missing_amount_inserted :
    (import_transactions ⟨[], 0⟩
        [⟨some "A", none, some "deposit", some (.good 5)⟩] 10).1
      = ViewImportResult.ok ⟨1, 0, 0⟩
      ∧ ((import_transactions ⟨[], 0⟩
          [⟨some "A", none, some "deposit", some (.good 5)⟩] 10).2.rows.countP
            fun r => r.code == some "A") = 1 := by decide

/-- C9 amended: the handling of a malformed record depends on the path and
on the missing field.  In the view, only records missing (or carrying an
empty) identifier are skipped and counted in `skipped_count`; a record
missing `amount` or `timestamp` is still inserted when the batch's INSERT
goes through (`amount` defaulted to `0`, the missing timestamp stored as
NULL); but a record missing `kind` reaches `bulk_create` as NULL in the NOT
NULL `type` column, so the whole batch fails with a 500 and nothing at all
is inserted.  In the management command, a record missing any of the four
required fields is skipped and never inserted, without failing the batch:
every row the command leaves behind is either a pre-existing row or stems
from a fully populated record. -/
theorem c9_amended_malformed_records :
    (∀ (db : DB) (recs : List RawRecord) (now : Nat) (out : ImportOutcome),
      (import_transactions db recs now).1 = ViewImportResult.ok out →
      out.skipped = recs.countP (viewSkip db))
    ∧ (∀ (db : DB) (r : RawRecord), r.id = none → viewSkip db r = true)
    ∧ (∀ (db : DB) (recs : List RawRecord) (now : Nat) (r : RawRecord)
        (cid : String), db.ok → r ∈ recs → r.id = some cid → cid ≠ "" →
        ¬ codeExists db cid →
        ¬ bulkCreateFails db
            (sortPending now (viewProcess db now recs).2.2) = true →
        ∃ row ∈ (import_transactions db recs now).2.rows,
          row.code = some cid ∧ row.type = r.type
            ∧ row.amount = normalizeSign r.type (r.amount.getD 0)
            ∧ row.created_at = parseViewTs now r.createdAt)
    ∧ (∀ (db : DB) (recs : List RawRecord) (now : Nat) (r : RawRecord)
        (cid : String), r ∈ recs → r.id = some cid → cid ≠ "" →
        ¬ codeExists db cid → r.type = none →
        import_transactions db recs now = (ViewImportResult.serverError, db))
    ∧ ∀ (db : DB) (recs : List RawRecord),
        ∀ row ∈ (command_handle db recs).2.rows, row ∈ db.rows
          ∨ ∃ r ∈ recs, ∃ cid aa ty ts,
              r.id = some cid ∧ r.amount = some aa ∧ r.type = some ty
                ∧ r.createdAt = some ts
                ∧ row = { mkCmdRow cid aa ty ts with id := row.id } := by
  refine ⟨?_, ?_, ?_, ?_, ?_⟩
  · intro db recs now out hres
    rw [(import_ok_counts hres).2, viewProcess_skipped]
  · intro db r hid
    unfold viewSkip
    rw [hid]
  · intro db recs now r cid hok hr hid hne hnex hfail
    have hp : mkImportRow cid r now ∈ (viewProcess db now recs).2.2 :=
      viewProcess_mem_pend db now recs r hr cid hid hne hnex
    have hemp : ¬ (viewProcess db now recs).2.2.isEmpty = true := by
      intro he
      rw [List.isEmpty_iff.mp he] at hp
      cases hp
    have hsp : mkImportRow cid r now
        ∈ sortPending now (viewProcess db now recs).2.2 :=
      (sortPending_perm now _).mem_iff.mpr hp
    rcases mem_assignIds _ _ hsp db.nextId with ⟨q, hq, hqe⟩
    have hq1 : q ∈ db.rows ++ assignIds db.nextId
        (sortPending now (viewProcess db now recs).2.2) :=
      List.mem_append.mpr (Or.inr hq)
    have hmemrow : setBalance q
        (specPrefixBalance (db.rows ++ assignIds db.nextId
          (sortPending now (viewProcess db now recs).2.2)) q)
        ∈ (recalculate_running_balance
            ⟨db.rows ++ assignIds db.nextId
                (sortPending now (viewProcess db now recs).2.2),
             db.nextId + (sortPending now
                (viewProcess db now recs).2.2).length⟩).1.rows := by
      rw [recalc_rows_eq (idsNodup_append_assignIds hok _)]
      exact List.mem_map.mpr ⟨q, hq1, rfl⟩
    refine ⟨setBalance q
      (specPrefixBalance (db.rows ++ assignIds db.nextId
        (sortPending now (viewProcess db now recs).2.2)) q), ?_, ?_⟩
    · rw [import_transactions_eq, if_neg hemp, if_neg hfail]
      exact hmemrow
    · rw [hqe]
      exact ⟨rfl, rfl, rfl, rfl⟩
  · intro db recs now r cid hr hid hne hnex hty
    have hp : mkImportRow cid r now ∈ (viewProcess db now recs).2.2 :=
      viewProcess_mem_pend db now recs r hr cid hid hne hnex
    have hemp : ¬ (viewProcess db now recs).2.2.isEmpty = true := by
      intro he
      rw [List.isEmpty_iff.mp he] at hp
      cases hp
    have hsp : mkImportRow cid r now
        ∈ sortPending now (viewProcess db now recs).2.2 :=
      (sortPending_perm now _).mem_iff.mpr hp
    have hfail : bulkCreateFails db
        (sortPending now (viewProcess db now recs).2.2) = true :=
      bulkCreateFails_of_null_type _ hsp hty
    rw [import_transactions_eq, if_neg hemp, if_pos hfail]
  · intro db recs row hrow
    rcases insertIgnoreConflicts_rows db (cmdPending db recs)
      with ⟨newRows, hrows, hmem⟩
    have hrow' : row ∈ db.rows ++ newRows := by
      rw [← hrows]
      exact hrow
    rcases List.mem_append.mp hrow' with h | h
    · exact Or.inl h
    · rcases hmem row h with ⟨t, ht, hpe⟩
      rcases cmdPending_mem db recs t ht
        with ⟨r, hr, cid, aa, ty, ts, h1, h2, h3, h4, _, hteq⟩
      exact Or.inr ⟨r, hr, cid, aa, ty, ts, h1, h2, h3, h4,
        hpe.trans (by rw [hteq])⟩

/-- Witness for the amended C9: the record missing its `amount` from the
counterexample is inserted by the view with amount `0.00`, kind as given and
the parsed timestamp. -/
theorem c9_amended_malformed_records_witness :
    ∃ row ∈ (import_transactions ⟨[], 0⟩
        [⟨some "A", none, some "deposit", some (.good 5)⟩] 10).2.rows,
      row.code = some "A"
        ∧ row.type = (⟨some "A", none, some "deposit", some (.good 5)⟩ :
            RawRecord).type
        ∧ row.amount = normalizeSign
            (⟨some "A", none, some "deposit", some (.good 5)⟩ :
              RawRecord).type
            ((⟨some "A", none, some "deposit", some (.good 5)⟩ :
              RawRecord).amount.getD 0)
        ∧ row.created_at = parseViewTs 10
            (⟨some "A", none, some "deposit", some (.good 5)⟩ :
              RawRecord).createdAt :=
  c9_amended_malformed_records.2.2.1 ⟨[], 0⟩
    [⟨some "A", none, some "deposit", some (.good 5)⟩] 10
    ⟨some "A", none, some "deposit", some (.good 5)⟩ "A"
    (by decide) (by decide) rfl (by decide) (by decide) (by decide)

/-! ## Claim C10 -/

/-- Lowercase hexadecimal digits — the alphabet of `uuid4().hex`. -/
def isLowerHex (c : Char) : Bool :=
  c == 'a' || c == 'b' || c == 'c' || c == 'd' || c == 'e' || c == 'f'
    || c == '0' || c == '1' || c == '2' || c == '3' || c == '4'
    || c == '5' || c == '6' || c == '7' || c == '8' || c == '9'

/-- Uppercase hexadecimal digits — the alphabet of the stored code. -/
def isUpperHex (c : Char) : Bool :=
  c == 'A' || c == 'B' || c == 'C' || c == 'D' || c == 'E' || c == 'F'
    || c == '0' || c == '1' || c == '2' || c == '3' || c == '4'
    || c == '5' || c == '6' || c == '7' || c == '8' || c == '9'

theorem isUpperHex_toUpper {c : Char} (h : isLowerHex c) :
    isUpperHex (Char.toUpper c) := by
  unfold isLowerHex at h
  have h' : c = 'a' ∨ c = 'b' ∨ c = 'c' ∨ c = 'd' ∨ c = 'e' ∨ c = 'f'
      ∨ c = '0' ∨ c = '1' ∨ c = '2' ∨ c = '3' ∨ c = '4'
      ∨ c = '5' ∨ c = '6' ∨ c = '7' ∨ c = '8' ∨ c = '9' := by
    simpa [Bool.or_eq_true, or_assoc] using h
  rcases h' with rfl | rfl | rfl | rfl | rfl | rfl | rfl | rfl | rfl | rfl
    | rfl | rfl | rfl | rfl | rfl | rfl <;> decide

theorem genCode_length {u : String} (h : u.data.length = 32) :
    (genCode u).data.length = 8 := by
  unfold genCode
  show ((u.data.take 8).map Char.toUpper).length = 8
  rw [List.length_map, List.length_take, h]
  decide

theorem genCode_upperHex {u : String} (h : ∀ ch ∈ u.data, isLowerHex ch) :
    ∀ ch ∈ (genCode u).data, isUpperHex ch := by
  unfold genCode
  intro ch hch
  rcases List.mem_map.mp hch with ⟨c, hc, rfl⟩
  exact isUpperHex_toUpper (h c (List.mem_of_mem_take hc))

/-- Refreshing the just-saved entry (`Transaction.objects.get(id=...)`)
retrieves the new entry with its recomputed balance. -/
theorem afterAdd_fresh (db : DB) (ty : String) (a : Int) (now : Nat)
    (u : String) (hok : db.ok) :
    ((afterAdd db ty a now u).rows.find?
        fun r => r.id == (newEntry db ty a now u).id)
      = some (setBalance (newEntry db ty a now u)
          (specPrefixBalance (db.rows ++ [newEntry db ty a now u])
            (newEntry db ty a now u))) := by
  have haf : (afterAdd db ty a now u).rows
      = (db.rows ++ [newEntry db ty a now u]).map fun r =>
          setBalance r
            (specPrefixBalance (db.rows ++ [newEntry db ty a now u]) r) :=
    @recalc_rows_eq
      ⟨db.rows ++ [newEntry db ty a now u], db.nextId + 1⟩
      (idsNodup_append_fresh hok rfl)
  rw [haf, List.map_append, List.find?_append]
  have hnone : (List.find? (fun r => r.id == (newEntry db ty a now u).id)
      (db.rows.map fun r => setBalance r
        (specPrefixBalance (db.rows ++ [newEntry db ty a now u]) r))) = none := by
    rw [List.find?_eq_none]
    intro x hx
    rcases List.mem_map.mp hx with ⟨r, hr, rfl⟩
    have := hok.2 r hr
    show ¬ (r.id == db.nextId) = true
    intro hbeq
    have : r.id = db.nextId := by simpa using hbeq
    omega
  rw [hnone, Option.none_or]
  show (List.find? (fun r => r.id == (newEntry db ty a now u).id)
      [setBalance (newEntry db ty a now u)
        (specPrefixBalance (db.rows ++ [newEntry db ty a now u])
          (newEntry db ty a now u))])
    = some (setBalance (newEntry db ty a now u)
        (specPrefixBalance (db.rows ++ [newEntry db ty a now u])
          (newEntry db ty a now u)))
  rw [List.find?_cons_of_pos]
  simp only [beq_iff_eq]
  rfl

/-- C10: for every successful submission through the add view, the stored
entry's code is the server-generated `uuid4().hex[:8].upper()` — eight
uppercase hexadecimal characters — and its timestamp is the submission
time; the caller supplies only the kind and the amount (the embedding of
the form has no code or timestamp input), so, provided no stored entry
carries a future timestamp, the new entry is chronologically last in the
resulting ledger. -/
theorem c10_server_code_and_submission_time (db : DB) (ty : String) (a : Int)
    (now : Nat) (u : String) (e : Transaction) (tb : Int) (db' : DB)
    (hok : db.ok)
    (h : add_transaction db ty a now u = (AddOutcome.success e tb, db'))
    (hlen : u.data.length = 32) (hhex : ∀ ch ∈ u.data, isLowerHex ch)
    (hnow : ∀ r ∈ db.rows,
      tsLt r.created_at (some now) = true ∨ r.created_at = some now) :
    e.code = some (genCode u)
      ∧ e.created_at = some now
      ∧ (genCode u).data.length = 8
      ∧ (∀ ch ∈ (genCode u).data, isUpperHex ch)
      ∧ ∀ r ∈ db'.rows, keyLe r e := by
  rcases add_transaction_cases db ty a now u hok with ⟨_, hne⟩ | ⟨_, _, _, heq⟩
  · exact absurd (congrArg Prod.fst h) (hne e tb)
  · have hcomb := heq.symm.trans h
    have h1 : AddOutcome.success
        (((afterAdd db ty a now u).rows.find?
            fun r => r.id == (newEntry db ty a now u).id).getD
          (newEntry db ty a now u))
        (currentTotalBalance (afterAdd db ty a now u))
        = AddOutcome.success e tb := congrArg Prod.fst hcomb
    have hdb' : afterAdd db ty a now u = db' := congrArg Prod.snd hcomb
    injection h1 with h1a h1b
    rw [afterAdd_fresh db ty a now u hok] at h1a
    simp only [Option.getD_some] at h1a
    refine ⟨?_, ?_, genCode_length hlen, genCode_upperHex hhex, ?_⟩
    · rw [← h1a]
      rfl
    · rw [← h1a]
      rfl
    · intro r hr
      rw [← hdb'] at hr
      have haf : (afterAdd db ty a now u).rows
          = (db.rows ++ [newEntry db ty a now u]).map fun r =>
              setBalance r
                (specPrefixBalance (db.rows ++ [newEntry db ty a now u]) r) :=
        @recalc_rows_eq
          ⟨db.rows ++ [newEntry db ty a now u], db.nextId + 1⟩
          (idsNodup_append_fresh hok rfl)
      rw [haf] at hr
      rcases List.mem_map.mp hr with ⟨r₀, hr₀, rfl⟩
      rw [← h1a]
      show keyLe r₀ (newEntry db ty a now u)
      rcases List.mem_append.mp hr₀ with h' | h'
      · exact keyLe_to_new (hnow r₀ h') (Nat.le_of_lt (hok.2 r₀ h'))
      · rcases List.mem_singleton.mp h' with rfl
        exact keyLe_refl _

/-- Witness for C10 at the concrete admission used throughout: the stored
code is `"ABCDEF01"` — eight uppercase hexadecimal characters — and the
timestamp is the submission time `10`. -/
theorem c10_server_code_and_submission_time_witness :
    (⟨1, some "ABCDEF01", some "deposit", 1000, some 10, 6000, false⟩ :
        Transaction).code
        = some (genCode "abcdef0123456789abcdef0123456789")
      ∧ (⟨1, some "ABCDEF01", some "deposit", 1000, some 10, 6000, false⟩ :
          Transaction).created_at = some 10
      ∧ (genCode "abcdef0123456789abcdef0123456789").data.length = 8 := by
  have h := c10_server_code_and_submission_time
    ⟨[⟨0, some "A", some "deposit", 5000, some 3, 5000, false⟩], 1⟩
    "deposit" 1000 10 "abcdef0123456789abcdef0123456789"
    ⟨1, some "ABCDEF01", some "deposit", 1000, some 10, 6000, false⟩ 6000
    ⟨[⟨0, some "A", some "deposit", 5000, some 3, 5000, false⟩,
      ⟨1, some "ABCDEF01", some "deposit", 1000, some 10, 6000, false⟩], 2⟩
    (by decide) (by decide) (by decide) (by decide) (by decide)
  exact ⟨h.1, h.2.1, h.2.2.1⟩

end Ledgerly
